import Mathlib

/-!
Formal model of the folder synchronizer (`file_synchronizer.py`).

Paths are lists of name components, relative to the respective root
directory.  A filesystem tree is a finite association list from paths to
nodes; a node is either a directory or a file carrying its byte content and
a modification time.  The functions `update_replica`, `cleanup_replica`,
`synchronize_directories`, `files_equal`, `generate_md5`,
`fetch_files_and_dirs` and `initialize` mirror the methods of the
`FileSynchronizer` class; the scheduler loop of `run` is modelled as the
discrete transition system `tickSched`.  The filesystem primitives used by
the source (`os.makedirs`, `shutil.copy2`, `shutil.rmtree`, `os.remove`,
reading a file) are modelled together with their error behaviour, and
permission denials are injected through Boolean oracles so that the
`try/except PermissionError` blocks of the source can be analysed.
MD5 itself is implemented bit-faithfully (RFC 1321), so that the content
comparison done by `files_equal` is modelled exactly.
-/

set_option maxRecDepth 1000000

namespace FolderSync

/-- A path relative to a root directory, as a list of name components. -/
abbrev Path := List String

/-- A filesystem node: a directory, or a file with its byte content and a
modification time (`shutil.copy2` preserves the latter, `files_equal`
ignores it). -/
inductive Node where
  | dir : Node
  | file (content : List Nat) (mtime : Nat) : Node
deriving DecidableEq

/-- A filesystem tree: a finite association list from relative paths to
nodes.  The root itself is not an entry. -/
structure FS where
  entries : List (Path × Node)
deriving DecidableEq

/-- Errors raised by the modelled filesystem primitives, mirroring the
Python exception classes that the source can encounter
(`PermissionError`, `FileNotFoundError`, `FileExistsError`,
`IsADirectoryError`, `NotADirectoryError`). -/
inductive Err where
  | permission (p : Path)
  | fileNotFound (p : Path)
  | fileExists (p : Path)
  | isADirectory (p : Path)
  | notADirectory (p : Path)
deriving DecidableEq

/-- A performed filesystem mutation, recorded for the frame/idempotence
claims: directory creation, file copy, recursive directory removal, file
removal. -/
inductive Mut where
  | mkdirs (p : Path)
  | copy (p : Path)
  | rmdir (p : Path)
  | rmfile (p : Path)
deriving DecidableEq

/-- Decidable equality of `Except` results, used to evaluate the model on
concrete inputs. -/
instance {e a : Type} [DecidableEq e] [DecidableEq a] : DecidableEq (Except e a) :=
  fun x y =>
    match x, y with
    | .error e1, .error e2 =>
      if h : e1 = e2 then .isTrue (by rw [h]) else
        .isFalse (fun hx => by injection hx with h2; exact h h2)
    | .error _, .ok _ => .isFalse (fun hx => by injection hx)
    | .ok _, .error _ => .isFalse (fun hx => by injection hx)
    | .ok a1, .ok a2 =>
      if h : a1 = a2 then .isTrue (by rw [h]) else
        .isFalse (fun hx => by injection hx with h2; exact h h2)

/-- Look a path up in an association list (first match). -/
def findA : List (Path × Node) → Path → Option Node
  | [], _ => none
  | e :: rest, p => if e.1 = p then some e.2 else findA rest p

/-- Look a path up in a filesystem tree. -/
def FS.find (fs : FS) (p : Path) : Option Node := findA fs.entries p

/-- Remove every binding of a key from an association list. -/
def eraseKey : List (Path × Node) → Path → List (Path × Node)
  | [], _ => []
  | e :: rest, p => if e.1 = p then eraseKey rest p else e :: eraseKey rest p

/-- Write a binding, replacing any previous binding of the same path. -/
def FS.set (fs : FS) (p : Path) (n : Node) : FS :=
  ⟨(p, n) :: eraseKey fs.entries p⟩

/-- `isUnder q p` decides whether `q` is a (not necessarily proper)
prefix of the path `p`, i.e. whether `p` lies in the subtree rooted at
`q`. -/
def isUnder : Path → Path → Bool
  | [], _ => true
  | _ :: _, [] => false
  | a :: qs, b :: ps => decide (a = b) && isUnder qs ps

/-- Remove every binding whose key lies in the subtree rooted at `p`
(the effect of `shutil.rmtree`). -/
def removePrefixed : List (Path × Node) → Path → List (Path × Node)
  | [], _ => []
  | e :: rest, p => if isUnder p e.1 then removePrefixed rest p else e :: removePrefixed rest p

/-- The nonempty proper ancestors of a path, shortest first. -/
def properPrefixes (p : Path) : List Path :=
  (List.range p.length).filterMap (fun i => if i = 0 then none else some (p.take i))

/-- Whether the node stored at a path is a file. -/
def isFileAt (fs : FS) (q : Path) : Bool :=
  match fs.find q with
  | some (.file _ _) => true
  | _ => false

/-- Whether the node stored at a path is a directory. -/
def isDirAt (fs : FS) (q : Path) : Bool :=
  match fs.find q with
  | some .dir => true
  | _ => false

/-- The permission oracle under which no operation is denied: the plain,
error-free semantics of the filesystem primitives. -/
def noDeny : Path → Bool := fun _ => false

/-- Well-formedness of a tree: every entry has a nonempty path and all of
its proper ancestors are present as directories. -/
def FS.WF (fs : FS) : Prop :=
  ∀ pr ∈ fs.entries, pr.1 ≠ [] ∧ ∀ q ∈ properPrefixes pr.1, fs.find q = some Node.dir

instance (fs : FS) : Decidable fs.WF := by
  unfold FS.WF; infer_instance

/-! ## MD5 (RFC 1321), as used by `generate_md5` via `hashlib.md5` -/

/-- Truncate to 32 bits. -/
def u32 (x : Nat) : Nat := x % 4294967296

/-- Rotate a 32-bit value left by `s` bits. -/
def rotl32 (x s : Nat) : Nat := u32 ((x <<< s) ||| (x >>> (32 - s)))

/-- The 64 MD5 sine-derived constants. -/
def md5K : List Nat :=
  [0xd76aa478, 0xe8c7b756, 0x242070db, 0xc1bdceee,
   0xf57c0faf, 0x4787c62a, 0xa8304613, 0xfd469501,
   0x698098d8, 0x8b44f7af, 0xffff5bb1, 0x895cd7be,
   0x6b901122, 0xfd987193, 0xa679438e, 0x49b40821,
   0xf61e2562, 0xc040b340, 0x265e5a51, 0xe9b6c7aa,
   0xd62f105d, 0x02441453, 0xd8a1e681, 0xe7d3fbc8,
   0x21e1cde6, 0xc33707d6, 0xf4d50d87, 0x455a14ed,
   0xa9e3e905, 0xfcefa3f8, 0x676f02d9, 0x8d2a4c8a,
   0xfffa3942, 0x8771f681, 0x6d9d6122, 0xfde5380c,
   0xa4beea44, 0x4bdecfa9, 0xf6bb4b60, 0xbebfbc70,
   0x289b7ec6, 0xeaa127fa, 0xd4ef3085, 0x04881d05,
   0xd9d4d039, 0xe6db99e5, 0x1fa27cf8, 0xc4ac5665,
   0xf4292244, 0x432aff97, 0xab9423a7, 0xfc93a039,
   0x655b59c3, 0x8f0ccc92, 0xffeff47d, 0x85845dd1,
   0x6fa87e4f, 0xfe2ce6e0, 0xa3014314, 0x4e0811a1,
   0xf7537e82, 0xbd3af235, 0x2ad7d2bb, 0xeb86d391]

/-- The 64 MD5 per-round shift amounts. -/
def md5S : List Nat :=
  [7, 12, 17, 22, 7, 12, 17, 22, 7, 12, 17, 22, 7, 12, 17, 22,
   5, 9, 14, 20, 5, 9, 14, 20, 5, 9, 14, 20, 5, 9, 14, 20,
   4, 11, 16, 23, 4, 11, 16, 23, 4, 11, 16, 23, 4, 11, 16, 23,
   6, 10, 15, 21, 6, 10, 15, 21, 6, 10, 15, 21, 6, 10, 15, 21]

/-- The MD5 round function for round `i`. -/
def md5F (i b c d : Nat) : Nat :=
  if i < 16 then (b &&& c) ||| ((0xffffffff ^^^ b) &&& d)
  else if i < 32 then (d &&& b) ||| ((0xffffffff ^^^ d) &&& c)
  else if i < 48 then b ^^^ c ^^^ d
  else c ^^^ (b ||| (0xffffffff ^^^ d))

/-- The MD5 message-word index for round `i`. -/
def md5G (i : Nat) : Nat :=
  if i < 16 then i
  else if i < 32 then (5 * i + 1) % 16
  else if i < 48 then (3 * i + 5) % 16
  else (7 * i) % 16

/-- The four 32-bit MD5 chaining registers. -/
structure MD5St where
  a : Nat
  b : Nat
  c : Nat
  d : Nat
deriving DecidableEq

/-- One MD5 round on registers `st` with message words `M`. -/
def md5Round (M : List Nat) (st : MD5St) (i : Nat) : MD5St :=
  let f := u32 (md5F i st.b st.c st.d + st.a + md5K.getD i 0 + M.getD (md5G i) 0)
  ⟨st.d, u32 (st.b + rotl32 f (md5S.getD i 0)), st.b, st.c⟩

/-- Little-endian grouping of bytes into 32-bit words. -/
def bytesToWords : List Nat → List Nat
  | b0 :: b1 :: b2 :: b3 :: rest =>
      (b0 + 256 * b1 + 65536 * b2 + 16777216 * b3) :: bytesToWords rest
  | _ => []

/-- Process one 64-byte block. -/
def md5Block (st : MD5St) (block : List Nat) : MD5St :=
  let r := (List.range 64).foldl (md5Round (bytesToWords block)) st
  ⟨u32 (st.a + r.a), u32 (st.b + r.b), u32 (st.c + r.c), u32 (st.d + r.d)⟩

/-- Process a padded message 64 bytes at a time (the fuel argument makes
the recursion structural; it is instantiated with the message length). -/
def md5Blocks : Nat → MD5St → List Nat → MD5St
  | 0, st, _ => st
  | _, st, [] => st
  | fuel + 1, st, l => md5Blocks fuel (md5Block st (l.take 64)) (l.drop 64)

/-- MD5 padding: a 0x80 byte, zeros to 56 mod 64, then the bit length as
a 64-bit little-endian quantity. -/
def md5Pad (msg : List Nat) : List Nat :=
  msg ++ 128 :: List.replicate ((119 - msg.length % 64) % 64) 0
      ++ (List.range 8).map (fun i => (((8 * msg.length) % 18446744073709551616) >>> (8 * i)) % 256)

/-- The MD5 initial register values. -/
def md5Init : MD5St := ⟨0x67452301, 0xefcdab89, 0x98badcfe, 0x10325476⟩

/-- The lowercase hexadecimal digit of a value below sixteen: `0`-`9` are
the ASCII digits, `10`-`15` the letters `a`-`f`. -/
def hexDigit (n : Nat) : Char :=
  if n < 10 then Char.ofNat (48 + n) else Char.ofNat (87 + n)

/-- Two lowercase hex digits of a byte. -/
def hexByte (b : Nat) : List Char :=
  [hexDigit (b / 16 % 16), hexDigit (b % 16)]

/-- The sixteen digest bytes of a final register state, little-endian per
register. -/
def stBytes (st : MD5St) : List Nat :=
  [st.a, st.b, st.c, st.d].flatMap (fun w => (List.range 4).map (fun i => (w >>> (8 * i)) % 256))

/-- The lowercase hexadecimal MD5 digest of a byte string, exactly as
`hashlib.md5(data).hexdigest()` computes it. -/
def md5hex (msg : List Nat) : String :=
  let padded := md5Pad msg
  String.mk ((stBytes (md5Blocks padded.length md5Init padded)).flatMap hexByte)



/-- The first message of the classic MD5 collision pair (Wang et al.). -/
def collMsg1 : List Nat :=
  [209, 49, 221, 2, 197, 230, 238, 196, 105, 61, 154, 6, 152, 175, 249, 92,
   47, 202, 181, 135, 18, 70, 126, 171, 64, 4, 88, 62, 184, 251, 127, 137,
   85, 173, 52, 6, 9, 244, 179, 2, 131, 228, 136, 131, 37, 113, 65, 90,
   8, 81, 37, 232, 247, 205, 201, 159, 217, 29, 189, 242, 128, 55, 60, 91,
   216, 130, 62, 49, 86, 52, 143, 91, 174, 109, 172, 212, 54, 201, 25, 198,
   221, 83, 226, 180, 135, 218, 3, 253, 2, 57, 99, 6, 210, 72, 205, 160,
   233, 159, 51, 66, 15, 87, 126, 232, 206, 84, 182, 112, 128, 168, 13, 30,
   198, 152, 33, 188, 182, 168, 131, 147, 150, 249, 101, 43, 111, 247, 42, 112]

/-- The second message of the classic MD5 collision pair (Wang et al.). -/
def collMsg2 : List Nat :=
  [209, 49, 221, 2, 197, 230, 238, 196, 105, 61, 154, 6, 152, 175, 249, 92,
   47, 202, 181, 7, 18, 70, 126, 171, 64, 4, 88, 62, 184, 251, 127, 137,
   85, 173, 52, 6, 9, 244, 179, 2, 131, 228, 136, 131, 37, 241, 65, 90,
   8, 81, 37, 232, 247, 205, 201, 159, 217, 29, 189, 114, 128, 55, 60, 91,
   216, 130, 62, 49, 86, 52, 143, 91, 174, 109, 172, 212, 54, 201, 25, 198,
   221, 83, 226, 52, 135, 218, 3, 253, 2, 57, 99, 6, 210, 72, 205, 160,
   233, 159, 51, 66, 15, 87, 126, 232, 206, 84, 182, 112, 128, 40, 13, 30,
   198, 152, 33, 188, 182, 168, 131, 147, 150, 249, 101, 171, 111, 247, 42, 112]

/-! ## The modelled filesystem primitives -/

/-- Add a directory node at `q` when nothing is there yet (one step of the
ancestor creation that `os.makedirs` performs). -/
def addDirIfMissing (fs : FS) (q : Path) : FS :=
  match fs.find q with
  | none => fs.set q Node.dir
  | some _ => fs

/-- The pure effect of `os.makedirs p`: create `p` and every missing
ancestor as directories. -/
def mkdirsFS (fs : FS) (p : Path) : FS :=
  (properPrefixes p ++ [p]).foldl addDirIfMissing fs

/-- `os.makedirs p` with its error behaviour: fails when `p` exists, when
an ancestor of `p` is a file, or when the write oracle denies `p`. -/
def makedirs (wd : Path → Bool) (fs : FS) (p : Path) : Except Err FS :=
  if fs.find p ≠ none then .error (.fileExists p)
  else if (properPrefixes p).any (fun q => isFileAt fs q) then .error (.notADirectory p)
  else if wd p then .error (.permission p)
  else .ok (mkdirsFS fs p)

/-- `shutil.copy2 p p` from the source tree into the replica tree: copies
the source file's content and metadata over the replica path, failing when
the source path is not a file, when the destination is a directory, when a
destination ancestor is missing or not a directory, or when an oracle
denies reading the source (`rdS`) or writing the destination (`wd`). -/
def copy2 (wd rdS : Path → Bool) (S R : FS) (p : Path) : Except Err FS :=
  match S.find p with
  | some (Node.file c m) =>
    if rdS p then .error (.permission p)
    else if wd p then .error (.permission p)
    else match R.find p with
      | some Node.dir => .error (.isADirectory p)
      | _ =>
        if (properPrefixes p).all (fun q => isDirAt R q) then .ok (R.set p (Node.file c m))
        else .error (.notADirectory p)
  | some Node.dir => .error (.isADirectory p)
  | none => .error (.fileNotFound p)

/-- `shutil.rmtree p`: remove the directory `p` with all its descendants
in one operation. -/
def rmtree (wd : Path → Bool) (fs : FS) (p : Path) : Except Err FS :=
  match fs.find p with
  | some Node.dir =>
      if wd p then .error (.permission p) else .ok ⟨removePrefixed fs.entries p⟩
  | some (Node.file _ _) => .error (.notADirectory p)
  | none => .error (.fileNotFound p)

/-- `os.remove p`: remove the single file `p`. -/
def osRemove (wd : Path → Bool) (fs : FS) (p : Path) : Except Err FS :=
  match fs.find p with
  | some (Node.file _ _) =>
      if wd p then .error (.permission p) else .ok ⟨eraseKey fs.entries p⟩
  | some Node.dir => .error (.isADirectory p)
  | none => .error (.fileNotFound p)

/-! ## The `FileSynchronizer` methods -/

/-- `FileSynchronizer.generate_md5`: open the file at `p` for reading and
return the hexadecimal MD5 digest of its content.  Opening a directory or
a missing path raises; a denied read raises `PermissionError`. -/
def generate_md5 (rd : Path → Bool) (fs : FS) (p : Path) : Except Err String :=
  match fs.find p with
  | some (Node.file c _) => if rd p then .error (.permission p) else .ok (md5hex c)
  | some Node.dir => .error (.isADirectory p)
  | none => .error (.fileNotFound p)

/-- `FileSynchronizer.files_equal`: compare the MD5 digests of the file at
`l` in the tree `S` and the file at `r` in the tree `R`. -/
def files_equal (rdS rdR : Path → Bool) (S R : FS) (l r : Path) : Except Err Bool := do
  let h1 ← generate_md5 rdS S l
  let h2 ← generate_md5 rdR R r
  pure (h1 == h2)

/-- The body of the `try: shutil.copy2 ... except PermissionError` block of
`update_replica`: a permission denial is caught (logged as a warning) and
the entry is skipped; any other error propagates. -/
def copyTry (wd rdS : Path → Bool) (S R : FS) (p : Path) : Except Err (FS × Option Mut) :=
  match copy2 wd rdS S R p with
  | .ok R1 => .ok (R1, some (Mut.copy p))
  | .error (Err.permission _) => .ok (R, none)
  | .error e => .error e

/-- One iteration of the `update_replica` loop for the source entry `p`:
create the directory when missing, otherwise copy the file when it is
missing from the replica or `files_equal` reports a difference.
Permission denials inside the `try` blocks are caught; every other error
(including a `PermissionError` raised by `files_equal`, which the source
calls outside any `try`) propagates. -/
def updStep (wd rdS rdR : Path → Bool) (S R : FS) (p : Path) : Except Err (FS × Option Mut) :=
  if S.find p = some Node.dir then
    if R.find p ≠ none then .ok (R, none)
    else
      match makedirs wd R p with
      | .ok R1 => .ok (R1, some (Mut.mkdirs p))
      | .error (Err.permission _) => .ok (R, none)
      | .error e => .error e
  else
    if R.find p = none then copyTry wd rdS S R p
    else
      match files_equal rdS rdR S R p p with
      | .error e => .error e
      | .ok true => .ok (R, none)
      | .ok false => copyTry wd rdS S R p

/-- One iteration of the `cleanup_replica` loop for the replica entry `p`:
when the corresponding source path does not exist and the replica entry
still exists, remove it — recursively for a directory, individually for a
file.  Permission denials are caught; other errors propagate. -/
def cleanStep (wd : Path → Bool) (S R : FS) (p : Path) : Except Err (FS × Option Mut) :=
  if S.find p = none ∧ R.find p ≠ none then
    if R.find p = some Node.dir then
      match rmtree wd R p with
      | .ok R1 => .ok (R1, some (Mut.rmdir p))
      | .error (Err.permission _) => .ok (R, none)
      | .error e => .error e
    else
      match osRemove wd R p with
      | .ok R1 => .ok (R1, some (Mut.rmfile p))
      | .error (Err.permission _) => .ok (R, none)
      | .error e => .error e
  else .ok (R, none)

/-- Run a per-entry step over a list of entries, threading the replica
tree, collecting the performed mutations, and stopping at the first
uncaught error — the common shape of the `update_replica` and
`cleanup_replica` loops. -/
def runSteps (step : FS → Path → Except Err (FS × Option Mut)) :
    List Path → FS → Except Err (FS × List Mut)
  | [], R => .ok (R, [])
  | p :: rest, R =>
    match step R p with
    | .error e => .error e
    | .ok (R1, m) =>
      match runSteps step rest R1 with
      | .error e => .error e
      | .ok (R2, ms) => .ok (R2, m.toList ++ ms)

/-- `FileSynchronizer.update_replica`, run on the item list `items`
(in the program: the source enumeration). -/
def update_replica (wd rdS rdR : Path → Bool) (S : FS) (items : List Path) (R : FS) :
    Except Err (FS × List Mut) :=
  runSteps (updStep wd rdS rdR S) items R

/-- `FileSynchronizer.cleanup_replica`, run on the item list `items`
(in the program: the replica enumeration). -/
def cleanup_replica (wd : Path → Bool) (S : FS) (items : List Path) (R : FS) :
    Except Err (FS × List Mut) :=
  runSteps (cleanStep wd S) items R

/-- The length of the longest path bound in the tree. -/
def maxKeyLen (fs : FS) : Nat :=
  fs.entries.foldl (fun a pr => max a pr.1.length) 0

/-- `FileSynchronizer.fetch_files_and_dirs`: enumerate every entry of the
tree.  `os.walk` (top-down) lists every directory before its children;
this is modelled by listing entries in order of path length. -/
def fetch_files_and_dirs (fs : FS) : List Path :=
  (List.range (maxKeyLen fs + 1)).flatMap
    (fun n => (fs.entries.map Prod.fst).filter (fun p => p.length == n))

/-- `FileSynchronizer.synchronize_directories`: one pass — update the
replica from the source enumeration, then prune a fresh replica
enumeration. -/
def synchronize_directories (wd rdS rdR : Path → Bool) (S R : FS) :
    Except Err (FS × List Mut) :=
  match update_replica wd rdS rdR S (fetch_files_and_dirs S) R with
  | .error e => .error e
  | .ok (R1, m1) =>
    match cleanup_replica wd S (fetch_files_and_dirs R1) R1 with
    | .error e => .error e
    | .ok (R2, m2) => .ok (R2, m1 ++ m2)

/-- `FileSynchronizer.initialize` (its filesystem effect): create the
replica root directory, with any missing ancestors, when it does not
exist; otherwise do nothing.  `fs` is the tree containing the replica
root; there is no `try` in the source, so errors propagate. -/
def initializeFS (wd : Path → Bool) (fs : FS) (replicaRoot : Path) : Except Err FS :=
  if fs.find replicaRoot ≠ none then .ok fs
  else makedirs wd fs replicaRoot

/-! ## The scheduler loop of `FileSynchronizer.run`

One tick is one iteration of the `while True: time.sleep(1)` loop.  The
state records the time of the last dispatch (`prev_call_time`), the
current time, the number of passes dispatched so far, and the remaining
running times of every worker thread ever started and not yet finished,
most recent first — the head of `threads` is the thread bound to the
variable `t`, whose liveness the source polls with `t.is_alive()`.  Pass
number `k` runs for `dur k` ticks. -/

/-- The scheduler state of `run`. -/
structure SchedState where
  prev : Nat
  now : Nat
  count : Nat
  threads : List Nat
deriving DecidableEq

/-- Remaining running time of the tracked (most recently started) worker
thread; `0` means `t.is_alive()` is false. -/
def headRem : List Nat → Nat
  | [] => 0
  | r :: _ => r

/-- One tick of the scheduler loop: time advances by one second and every
running pass progresses; then a new pass is dispatched exactly when the
period has elapsed since the last dispatch and the tracked worker is no
longer alive. -/
def tickSched (dur : Nat → Nat) (period : Nat) (s : SchedState) : SchedState :=
  if period ≤ s.now + 1 - s.prev ∧ headRem (s.threads.map (fun r => r - 1)) = 0 then
    ⟨s.now + 1, s.now + 1, s.count + 1, dur s.count :: s.threads.map (fun r => r - 1)⟩
  else ⟨s.prev, s.now + 1, s.count, s.threads.map (fun r => r - 1)⟩

/-- The scheduler after `n` ticks of `run`: the first pass is dispatched
immediately at startup, independent of the period. -/
def schedRun (dur : Nat → Nat) (period : Nat) : Nat → SchedState
  | 0 => ⟨0, 0, 1, [dur 0]⟩
  | n + 1 => tickSched dur period (schedRun dur period n)

/-! ## Predicates used by the verification -/

/-- The replica tree `R` is correctly synchronized at the source path `p`:
a source directory is matched by an existing replica entry, and a source
file is matched by a replica file with an equal MD5 digest. -/
def goodAt (S R : FS) (p : Path) : Prop :=
  (S.find p = some Node.dir → R.find p ≠ none) ∧
  (∀ c m, S.find p = some (Node.file c m) →
    ∃ c2 m2, R.find p = some (Node.file c2 m2) ∧ md5hex c2 = md5hex c)

/-- No path holding a directory in the source holds a file in the
replica (the kind-mismatch that `os.path.exists` cannot see). -/
def noDirFile (S R : FS) : Prop :=
  ∀ p c m, S.find p = some Node.dir → R.find p ≠ some (Node.file c m)

/-- Every binding of `A` is a binding of `B` (the tree `A` is obtained
from `B` by deletions only). -/
def SubFS (A B : FS) : Prop := ∀ q n, A.find q = some n → B.find q = some n

/-- All worker threads except the tracked (most recent) one have
finished. -/
def tailZero (s : SchedState) : Prop := ∀ r ∈ s.threads.tail, r = 0

/-! ## Concrete trees and oracles instantiating the claims -/

/-- A source tree: directory `a`, file `a/b`, file `c`. -/
def srcW : FS :=
  ⟨[(["a"], Node.dir), (["a", "b"], Node.file [1, 2] 5), (["c"], Node.file [3] 7)]⟩

/-- An initial replica holding one stale file `x`. -/
def repW : FS := ⟨[(["x"], Node.file [9] 1)]⟩

/-- The replica tree produced by one pass over `srcW` starting from `repW`. -/
def repW2 : FS :=
  ⟨[(["a", "b"], Node.file [1, 2] 5), (["c"], Node.file [3] 7), (["a"], Node.dir)]⟩

/-- The mutations performed by one pass over `srcW` starting from `repW`. -/
def msW : List Mut :=
  [Mut.mkdirs ["a"], Mut.copy ["c"], Mut.copy ["a", "b"], Mut.rmfile ["x"]]

/-- A source tree holding one empty directory `d`. -/
def srcD : FS := ⟨[(["d"], Node.dir)]⟩

/-- A replica tree holding a file at the same relative path `d`. -/
def repD : FS := ⟨[(["d"], Node.file [] 0)]⟩

/-- A replica for the pruner instance: entries of `srcW` plus a stale
directory `old` with a child file, and a stale file `e`. -/
def repC3 : FS :=
  ⟨[(["a"], Node.dir), (["a", "b"], Node.file [1, 2] 5), (["old"], Node.dir),
    (["old", "f"], Node.file [4] 0), (["e"], Node.file [8] 0)]⟩

/-- `repC3` after pruning against `srcW`. -/
def repC3r : FS := ⟨[(["a"], Node.dir), (["a", "b"], Node.file [1, 2] 5)]⟩

/-- A tree with two byte-identical files of different modification times. -/
def fsEq : FS := ⟨[(["l"], Node.file [97, 98, 99] 0), (["r"], Node.file [97, 98, 99] 9)]⟩

/-- A tree with two distinct files whose MD5 digests collide. -/
def fsColl : FS := ⟨[(["l"], Node.file collMsg1 0), (["r"], Node.file collMsg2 0)]⟩

/-- A source (and replica) tree holding the single file `a`. -/
def srcP : FS := ⟨[(["a"], Node.file [7] 0)]⟩

/-- An oracle denying access to the path `a`. -/
def denyA : Path → Bool := fun p => p == ["a"]

/-- An oracle denying access to the path `x`. -/
def denyX : Path → Bool := fun p => p == ["x"]

/-- A replica holding one stale directory `x`. -/
def repX : FS := ⟨[(["x"], Node.dir)]⟩

/-- A source tree holding a file `a` (where the replica has a directory). -/
def srcM : FS := ⟨[(["a"], Node.file [1] 0)]⟩

/-- A replica tree holding a directory `a` (where the source has a file). -/
def repM : FS := ⟨[(["a"], Node.dir)]⟩

/-- A tree holding a plain file `a`, blocking the creation of a root `a/b`. -/
def fsBad : FS := ⟨[(["a"], Node.file [] 0)]⟩

/-- The empty tree. -/
def fsEmpty : FS := ⟨[]⟩

/-- A source with one file `f`, byte-identical to the replica's copy. -/
def srcC7 : FS := ⟨[(["f"], Node.file [5, 6] 1)]⟩

/-- A replica whose file `f` matches `srcC7` in bytes but not in mtime. -/
def repC7 : FS := ⟨[(["f"], Node.file [5, 6] 2)]⟩

/-! ## Association list and path lemmas -/

theorem findA_eraseKey_self (l : List (Path × Node)) (p : Path) :
    findA (eraseKey l p) p = none := by
  induction l with
  | nil => rfl
  | cons e rest ih =>
    by_cases h : e.1 = p
    · simpa [eraseKey, h] using ih
    · simpa [eraseKey, findA, h] using ih

theorem findA_eraseKey_ne (l : List (Path × Node)) (p q : Path) (h : q ≠ p) :
    findA (eraseKey l p) q = findA l q := by
  induction l with
  | nil => rfl
  | cons e rest ih =>
    rw [eraseKey]
    by_cases he : e.1 = p
    · rw [if_pos he, ih, findA, if_neg (by rw [he]; exact fun hq => h hq.symm)]
    · rw [if_neg he, findA, findA]
      by_cases hq : e.1 = q
      · rw [if_pos hq, if_pos hq]
      · rw [if_neg hq, if_neg hq, ih]

theorem FS.find_set_self (fs : FS) (p : Path) (n : Node) :
    (fs.set p n).find p = some n := by
  simp [FS.set, FS.find, findA]

theorem FS.find_set_ne (fs : FS) (p q : Path) (n : Node) (h : q ≠ p) :
    (fs.set p n).find q = fs.find q := by
  simp only [FS.set, FS.find, findA]
  rw [if_neg (fun hq => h hq.symm), findA_eraseKey_ne _ _ _ h]

theorem findA_removePrefixed (l : List (Path × Node)) (p q : Path) :
    findA (removePrefixed l p) q =
      if isUnder p q then none else findA l q := by
  induction l with
  | nil => simp [removePrefixed, findA]
  | cons e rest ih =>
    by_cases hu : isUnder p e.1
    · by_cases hq : e.1 = q
      · subst hq
        simp [removePrefixed, hu, ih]
      · simpa [removePrefixed, findA, hu, hq] using ih
    · by_cases hq : e.1 = q
      · subst hq
        simp [removePrefixed, findA, hu]
      · simpa [removePrefixed, findA, hu, hq] using ih

theorem findA_mem {l : List (Path × Node)} {q : Path} {n : Node}
    (h : findA l q = some n) : (q, n) ∈ l := by
  induction l with
  | nil => exact absurd h (by simp [findA])
  | cons e rest ih =>
    by_cases he : e.1 = q
    · rw [findA, if_pos he] at h
      obtain ⟨e1, e2⟩ := e
      injection h with h2
      subst he
      subst h2
      exact List.mem_cons_self _ _
    · rw [findA, if_neg he] at h
      exact List.mem_cons_of_mem _ (ih h)

theorem findA_ne_none_of_mem {l : List (Path × Node)} {pr : Path × Node}
    (h : pr ∈ l) : findA l pr.1 ≠ none := by
  induction l with
  | nil => cases h
  | cons e rest ih =>
    rcases List.mem_cons.mp h with h | h
    · subst h; simp [findA]
    · by_cases he : e.1 = pr.1 <;> simp [findA, he, ih h]

theorem mem_properPrefixes {q p : Path} :
    q ∈ properPrefixes p ↔ ∃ i, i ≠ 0 ∧ i < p.length ∧ p.take i = q := by
  unfold properPrefixes
  rw [List.mem_filterMap]
  constructor
  · rintro ⟨i, hi, hf⟩
    rw [List.mem_range] at hi
    by_cases h0 : i = 0
    · simp [h0] at hf
    · rw [if_neg h0] at hf
      exact ⟨i, h0, hi, by injection hf⟩
  · rintro ⟨i, h0, hi, ht⟩
    exact ⟨i, List.mem_range.mpr hi, by simp [h0, ht]⟩

theorem length_lt_of_mem_properPrefixes {q p : Path} (h : q ∈ properPrefixes p) :
    q.length < p.length := by
  obtain ⟨i, h0, hi, ht⟩ := mem_properPrefixes.mp h
  have hlen : q.length = min i p.length := by rw [← ht, List.length_take]
  omega

theorem ne_self_of_mem_properPrefixes {q p : Path} (h : q ∈ properPrefixes p) :
    q ≠ p :=
  fun he => absurd (length_lt_of_mem_properPrefixes h) (by rw [he]; omega)

theorem ne_nil_of_mem_properPrefixes {q p : Path} (h : q ∈ properPrefixes p) :
    q ≠ [] := by
  obtain ⟨i, h0, hi, ht⟩ := mem_properPrefixes.mp h
  intro hnil
  rw [hnil] at ht
  have : ([] : Path).length = min i p.length := by rw [← ht, List.length_take]
  simp at this
  omega

theorem isUnder_iff_take : ∀ (q p : Path),
    isUnder q p = true ↔ (q.length ≤ p.length ∧ p.take q.length = q)
  | [], p => by simp [isUnder]
  | a :: qs, [] => by simp [isUnder]
  | a :: qs, b :: ps => by
    rw [isUnder]
    simp only [List.length_cons, List.take_succ_cons, Bool.and_eq_true, decide_eq_true_eq]
    rw [isUnder_iff_take qs ps]
    constructor
    · rintro ⟨hab, hle, ht⟩
      exact ⟨Nat.succ_le_succ hle, by rw [ht, hab]⟩
    · rintro ⟨hle, ht⟩
      injection ht with h1 h2
      exact ⟨h1.symm, Nat.le_of_succ_le_succ hle, h2⟩

theorem isUnder_refl (p : Path) : isUnder p p = true := by
  rw [isUnder_iff_take]
  exact ⟨Nat.le_refl _, by simp⟩

theorem isUnder_of_mem_properPrefixes {q p : Path} (h : q ∈ properPrefixes p) :
    isUnder q p = true := by
  obtain ⟨i, h0, hi, ht⟩ := mem_properPrefixes.mp h
  rw [isUnder_iff_take]
  have hlen : q.length = i := by rw [← ht]; simp [List.length_take]; omega
  refine ⟨by omega, ?_⟩
  rw [hlen, ht]

theorem mem_properPrefixes_of_isUnder {q p : Path}
    (h : isUnder q p = true) (hne : q ≠ p) (hnil : q ≠ []) :
    q ∈ properPrefixes p := by
  obtain ⟨hle, ht⟩ := (isUnder_iff_take q p).mp h
  rw [mem_properPrefixes]
  refine ⟨q.length, fun h0 => hnil (List.length_eq_zero.mp h0), ?_, ht⟩
  rcases Nat.lt_or_ge q.length p.length with hlt | hge
  · exact hlt
  · exfalso
    have : q.length = p.length := Nat.le_antisymm hle hge
    rw [this, List.take_length] at ht
    exact hne ht.symm

theorem find_ne_nil_of_WF {fs : FS} (hwf : fs.WF) {q : Path}
    (h : fs.find q ≠ none) : q ≠ [] := by
  rcases hq : fs.find q with _ | n
  · exact absurd hq h
  · exact (hwf _ (findA_mem hq)).1

theorem WF_ancestor_dir {fs : FS} (hwf : fs.WF) {q a : Path}
    (hq : fs.find q ≠ none) (ha : a ∈ properPrefixes q) :
    fs.find a = some Node.dir := by
  rcases hfind : fs.find q with _ | n
  · exact absurd hfind hq
  · exact (hwf _ (findA_mem hfind)).2 a ha

/-! ## Lemmas about `mkdirsFS` -/

theorem foldl_addDir_find_existing (L : List Path) (fs : FS) (q : Path)
    (h : fs.find q ≠ none) :
    (L.foldl addDirIfMissing fs).find q = fs.find q := by
  induction L generalizing fs with
  | nil => rfl
  | cons x rest ih =>
    rw [List.foldl_cons]
    rcases hx : fs.find x with _ | n
    · by_cases hq : q = x
      · subst hq; exact absurd hx h
      · have h1 : (addDirIfMissing fs x).find q = fs.find q := by
          simp [addDirIfMissing, hx, FS.find_set_ne _ _ _ _ hq]
        rw [ih (addDirIfMissing fs x) (by rw [h1]; exact h), h1]
    · have h1 : addDirIfMissing fs x = fs := by simp [addDirIfMissing, hx]
      rw [h1, ih fs h]

theorem foldl_addDir_not_mem (L : List Path) (fs : FS) (p : Path) (h : p ∉ L) :
    (L.foldl addDirIfMissing fs).find p = fs.find p := by
  induction L generalizing fs with
  | nil => rfl
  | cons x rest ih =>
    rw [List.foldl_cons]
    have hxp : p ≠ x := fun he => h (he ▸ List.mem_cons_self x rest)
    have h1 : (addDirIfMissing fs x).find p = fs.find p := by
      rcases hx : fs.find x with _ | n
      · simp [addDirIfMissing, hx, FS.find_set_ne _ _ _ _ hxp]
      · simp [addDirIfMissing, hx]
    rw [ih _ (fun hm => h (List.mem_cons_of_mem _ hm)), h1]

theorem foldl_addDir_cases (L : List Path) (fs : FS) (q : Path) :
    (L.foldl addDirIfMissing fs).find q = fs.find q ∨
      ((L.foldl addDirIfMissing fs).find q = some Node.dir ∧ q ∈ L) := by
  induction L generalizing fs with
  | nil => left; rfl
  | cons x rest ih =>
    rw [List.foldl_cons]
    rcases ih (addDirIfMissing fs x) with h | ⟨h1, h2⟩
    · rcases hx : fs.find x with _ | n
      · by_cases hq : q = x
        · subst hq
          right
          refine ⟨?_, List.mem_cons_self _ _⟩
          rw [h]
          simp [addDirIfMissing, hx, FS.find_set_self]
        · left
          rw [h]
          simp [addDirIfMissing, hx, FS.find_set_ne _ _ _ _ hq]
      · left
        rw [h]
        simp [addDirIfMissing, hx]
    · right
      exact ⟨h1, List.mem_cons_of_mem _ h2⟩

theorem mkdirsFS_find_existing (fs : FS) (p q : Path) (h : fs.find q ≠ none) :
    (mkdirsFS fs p).find q = fs.find q :=
  foldl_addDir_find_existing _ _ _ h

theorem mkdirsFS_self (fs : FS) (p : Path) (h : fs.find p = none) :
    (mkdirsFS fs p).find p = some Node.dir := by
  unfold mkdirsFS
  rw [List.foldl_append]
  have h1 : ((properPrefixes p).foldl addDirIfMissing fs).find p = fs.find p :=
    foldl_addDir_not_mem _ _ _ (fun hm => ne_self_of_mem_properPrefixes hm rfl)
  rw [List.foldl_cons, List.foldl_nil]
  rw [h] at h1
  simp [addDirIfMissing, h1, FS.find_set_self]

theorem mkdirsFS_cases (fs : FS) (p q : Path) :
    (mkdirsFS fs p).find q = fs.find q ∨
      ((mkdirsFS fs p).find q = some Node.dir ∧ (q ∈ properPrefixes p ∨ q = p)) := by
  rcases foldl_addDir_cases (properPrefixes p ++ [p]) fs q with h | ⟨h1, h2⟩
  · left; exact h
  · right
    refine ⟨h1, ?_⟩
    rcases List.mem_append.mp h2 with h | h
    · left; exact h
    · right; simpa using h

/-! ## Enumeration lemmas -/

theorem foldl_max_init_le (l : List (Path × Node)) (a : Nat) :
    a ≤ l.foldl (fun acc pr => max acc pr.1.length) a := by
  induction l generalizing a with
  | nil => exact Nat.le_refl _
  | cons e rest ih =>
    rw [List.foldl_cons]
    exact Nat.le_trans (Nat.le_max_left _ _) (ih _)

theorem foldl_max_mem (l : List (Path × Node)) (a : Nat) :
    ∀ pr ∈ l, pr.1.length ≤ l.foldl (fun acc pr => max acc pr.1.length) a := by
  induction l generalizing a with
  | nil => intro pr h; cases h
  | cons e rest ih =>
    intro pr h
    rw [List.foldl_cons]
    rcases List.mem_cons.mp h with h | h
    · subst h
      exact Nat.le_trans (Nat.le_max_right _ _) (foldl_max_init_le _ _)
    · exact ih _ pr h

theorem length_le_maxKeyLen {fs : FS} {pr : Path × Node} (h : pr ∈ fs.entries) :
    pr.1.length ≤ maxKeyLen fs :=
  foldl_max_mem _ _ _ h

theorem mem_fetch_iff (fs : FS) (q : Path) :
    q ∈ fetch_files_and_dirs fs ↔ fs.find q ≠ none := by
  unfold fetch_files_and_dirs
  rw [List.mem_flatMap]
  constructor
  · rintro ⟨n, _, hq⟩
    have hq2 := (List.mem_filter.mp hq).1
    obtain ⟨pr, hpr, hpr2⟩ := List.mem_map.mp hq2
    subst hpr2
    exact findA_ne_none_of_mem hpr
  · intro h
    rcases hfind : fs.find q with _ | n
    · exact absurd hfind h
    · have hmem : (q, n) ∈ fs.entries := findA_mem hfind
      refine ⟨q.length, ?_, ?_⟩
      · rw [List.mem_range]
        have := length_le_maxKeyLen hmem
        simp only at this
        omega
      · rw [List.mem_filter]
        exact ⟨List.mem_map.mpr ⟨(q, n), hmem, rfl⟩, by simp⟩

/-! ## Generic lemmas about the per-entry loops -/

theorem runSteps_skip {step : FS → Path → Except Err (FS × Option Mut)}
    {p : Path} {rest : List Path} {R : FS} (h : step R p = .ok (R, none)) :
    runSteps step (p :: rest) R = runSteps step rest R := by
  rw [runSteps, h]
  rcases hr : runSteps step rest R with e | ⟨R2, ms⟩ <;> simp [hr]

theorem runSteps_cons_error {step : FS → Path → Except Err (FS × Option Mut)}
    {p : Path} {rest : List Path} {R : FS} {e : Err} (h : step R p = .error e) :
    runSteps step (p :: rest) R = .error e := by
  rw [runSteps, h]

theorem runSteps_ok_elim {step : FS → Path → Except Err (FS × Option Mut)}
    {p : Path} {rest : List Path} {R R2 : FS} {ms : List Mut}
    (h : runSteps step (p :: rest) R = .ok (R2, ms)) :
    ∃ R1 m ms1, step R p = .ok (R1, m) ∧ runSteps step rest R1 = .ok (R2, ms1) ∧
      ms = m.toList ++ ms1 := by
  rcases hs : step R p with e | ⟨R1, m⟩
  · rw [runSteps_cons_error hs] at h; cases h
  · simp only [runSteps, hs] at h
    rcases hr : runSteps step rest R1 with e | ⟨R2', ms1⟩ <;> rw [hr] at h
    · cases h
    · injection h with h1
      injection h1 with h2 h3
      subst h2
      exact ⟨R1, m, ms1, rfl, hr, h3.symm⟩

theorem runSteps_noop {step : FS → Path → Except Err (FS × Option Mut)}
    {items : List Path} {R : FS} (h : ∀ p ∈ items, step R p = .ok (R, none)) :
    runSteps step items R = .ok (R, []) := by
  induction items with
  | nil => rfl
  | cons p rest ih =>
    rw [runSteps_skip (h p (List.mem_cons_self _ _))]
    exact ih (fun q hq => h q (List.mem_cons_of_mem _ hq))

theorem runSteps_inv {step : FS → Path → Except Err (FS × Option Mut)}
    {items : List Path} (P : FS → Prop)
    (hstep : ∀ Ra p Rb m, p ∈ items → step Ra p = .ok (Rb, m) → P Ra → P Rb) :
    ∀ {R R2 : FS} {ms : List Mut},
      runSteps step items R = .ok (R2, ms) → P R → P R2 := by
  induction items with
  | nil =>
    intro R R2 ms h hP
    rw [runSteps] at h
    injection h with h1
    injection h1 with h2 _
    exact h2 ▸ hP
  | cons p rest ih =>
    intro R R2 ms h hP
    obtain ⟨R1, m, ms1, hs, hr, _⟩ := runSteps_ok_elim h
    exact ih (fun Ra q Rb mm hq => hstep Ra q Rb mm (List.mem_cons_of_mem _ hq)) hr
      (hstep R p R1 m (List.mem_cons_self _ _) hs hP)

theorem runSteps_mut {step : FS → Path → Except Err (FS × Option Mut)}
    {items : List Path} (P : FS → Prop)
    (hstep : ∀ Ra p Rb m, p ∈ items → step Ra p = .ok (Rb, m) → P Ra → P Rb) :
    ∀ {R R2 : FS} {ms : List Mut},
      runSteps step items R = .ok (R2, ms) → P R →
        ∀ mu ∈ ms, ∃ p ∈ items, ∃ Ra Rb, P Ra ∧ step Ra p = .ok (Rb, some mu) := by
  induction items with
  | nil =>
    intro R R2 ms h hP mu hmu
    rw [runSteps] at h
    injection h with h1
    injection h1 with _ h3
    subst h3
    cases hmu
  | cons p rest ih =>
    intro R R2 ms h hP mu hmu
    obtain ⟨R1, m, ms1, hs, hr, hms⟩ := runSteps_ok_elim h
    subst hms
    rcases List.mem_append.mp hmu with hm | hm
    · rcases m with _ | m0
      · cases hm
      · have : mu = m0 := by simpa [Option.toList] using hm
        subst this
        exact ⟨p, List.mem_cons_self _ _, R, R1, hP, hs⟩
    · obtain ⟨q, hq, Ra, Rb, hPa, hsq⟩ :=
        ih (fun Ra q Rb mm hq => hstep Ra q Rb mm (List.mem_cons_of_mem _ hq)) hr
          (hstep R p R1 m (List.mem_cons_self _ _) hs hP) mu hm
      exact ⟨q, List.mem_cons_of_mem _ hq, Ra, Rb, hPa, hsq⟩

/-! ## Elimination lemmas for the filesystem primitives -/

theorem makedirs_ok {wd : Path → Bool} {fs : FS} {p : Path} {R1 : FS}
    (h : makedirs wd fs p = .ok R1) : fs.find p = none ∧ R1 = mkdirsFS fs p := by
  unfold makedirs at h
  split at h
  · cases h
  next hne =>
    split at h
    · cases h
    · split at h
      · cases h
      · injection h with h2
        exact ⟨not_not.mp hne, h2.symm⟩

theorem makedirs_noDeny_ne_perm (fs : FS) (p q : Path) :
    makedirs noDeny fs p ≠ .error (Err.permission q) := by
  intro h
  unfold makedirs at h
  split at h
  · injection h with h1; cases h1
  · split at h
    · injection h with h1; cases h1
    · split at h
      · rename_i hw
        exact absurd hw (by simp [noDeny])
      · cases h

theorem copy2_ok {wd rdS : Path → Bool} {S R : FS} {p : Path} {R1 : FS}
    (h : copy2 wd rdS S R p = .ok R1) :
    ∃ c m, S.find p = some (Node.file c m) ∧ R1 = R.set p (Node.file c m) := by
  unfold copy2 at h
  split at h
  next c m hS =>
    split at h
    · cases h
    · split at h
      · cases h
      · split at h
        · cases h
        · split at h
          · injection h with h2
            exact ⟨c, m, hS, h2.symm⟩
          · cases h
  · cases h
  · cases h

theorem copy2_noDeny_ne_perm (S R : FS) (p q : Path) :
    copy2 noDeny noDeny S R p ≠ .error (Err.permission q) := by
  intro h
  rcases hS : S.find p with _ | n
  · simp [copy2, hS] at h
  · cases n with
    | dir => simp [copy2, hS] at h
    | file c m =>
      rcases hR : R.find p with _ | n2
      · by_cases hall : ((properPrefixes p).all fun q => isDirAt R q) = true <;>
          simp [copy2, hS, hR, noDeny, hall] at h
      · cases n2 with
        | dir => simp [copy2, hS, hR, noDeny] at h
        | file c2 m2 =>
          by_cases hall : ((properPrefixes p).all fun q => isDirAt R q) = true <;>
            simp [copy2, hS, hR, noDeny, hall] at h

theorem rmtree_ok {wd : Path → Bool} {fs : FS} {p : Path} {R1 : FS}
    (h : rmtree wd fs p = .ok R1) :
    fs.find p = some Node.dir ∧ R1 = ⟨removePrefixed fs.entries p⟩ := by
  unfold rmtree at h
  split at h
  next hd =>
    split at h
    · cases h
    · injection h with h2
      exact ⟨hd, h2.symm⟩
  · cases h
  · cases h

theorem rmtree_noDeny_ne_perm (fs : FS) (p q : Path) :
    rmtree noDeny fs p ≠ .error (Err.permission q) := by
  intro h
  unfold rmtree at h
  split at h
  · split at h
    next hw => exact absurd hw (by simp [noDeny])
    · cases h
  · injection h with h1; cases h1
  · injection h with h1; cases h1

theorem osRemove_ok {wd : Path → Bool} {fs : FS} {p : Path} {R1 : FS}
    (h : osRemove wd fs p = .ok R1) :
    (∃ c m, fs.find p = some (Node.file c m)) ∧ R1 = ⟨eraseKey fs.entries p⟩ := by
  unfold osRemove at h
  split at h
  next c m hf =>
    split at h
    · cases h
    · injection h with h2
      exact ⟨⟨c, m, hf⟩, h2.symm⟩
  · cases h
  · cases h

theorem osRemove_noDeny_ne_perm (fs : FS) (p q : Path) :
    osRemove noDeny fs p ≠ .error (Err.permission q) := by
  intro h
  unfold osRemove at h
  split at h
  · split at h
    next hw => exact absurd hw (by simp [noDeny])
    · cases h
  · injection h with h1; cases h1
  · injection h with h1; cases h1

theorem generate_md5_file {fs : FS} {p : Path} {c : List Nat} {m : Nat}
    (h : fs.find p = some (Node.file c m)) :
    generate_md5 noDeny fs p = .ok (md5hex c) := by
  unfold generate_md5
  rw [h]
  simp [noDeny]

theorem generate_md5_ok {rd : Path → Bool} {fs : FS} {p : Path} {s : String}
    (h : generate_md5 rd fs p = .ok s) :
    ∃ c m, fs.find p = some (Node.file c m) ∧ s = md5hex c ∧ rd p = false := by
  unfold generate_md5 at h
  split at h
  next c m hf =>
    split at h
    · cases h
    next hr =>
      injection h with h2
      exact ⟨c, m, hf, h2.symm, by simpa using hr⟩
  · cases h
  · cases h

theorem files_equal_files {S R : FS} {l r : Path} {c : List Nat} {m : Nat}
    {c2 : List Nat} {m2 : Nat}
    (hl : S.find l = some (Node.file c m)) (hr : R.find r = some (Node.file c2 m2)) :
    files_equal noDeny noDeny S R l r = .ok (md5hex c == md5hex c2) := by
  rw [files_equal, generate_md5_file hl, generate_md5_file hr]
  rfl

theorem files_equal_ok {rdS rdR : Path → Bool} {S R : FS} {l r : Path} {b : Bool}
    (h : files_equal rdS rdR S R l r = .ok b) :
    ∃ c m c2 m2, S.find l = some (Node.file c m) ∧ R.find r = some (Node.file c2 m2) ∧
      b = (md5hex c == md5hex c2) := by
  unfold files_equal at h
  rcases hg1 : generate_md5 rdS S l with e | h1 <;> rw [hg1] at h
  · cases h
  · rcases hg2 : generate_md5 rdR R r with e | h2 <;> rw [hg2] at h
    · cases h
    · obtain ⟨c, m, hf1, hs1, _⟩ := generate_md5_ok hg1
      obtain ⟨c2, m2, hf2, hs2, _⟩ := generate_md5_ok hg2
      injection h with h3
      exact ⟨c, m, c2, m2, hf1, hf2, by rw [← h3, hs1, hs2]⟩

/-! ## Lemmas about one `update_replica` iteration -/

theorem copyTry_ok {wd rdS : Path → Bool} {S R : FS} {p : Path} {R1 : FS} {m : Option Mut}
    (h : copyTry wd rdS S R p = .ok (R1, m)) :
    (R1 = R ∧ m = none) ∨
      (∃ c mm, S.find p = some (Node.file c mm) ∧ R1 = R.set p (Node.file c mm) ∧
        m = some (Mut.copy p)) := by
  unfold copyTry at h
  split at h
  next R1' heq =>
    injection h with h1
    injection h1 with h2 h3
    obtain ⟨c, mm, hS, hset⟩ := copy2_ok heq
    exact Or.inr ⟨c, mm, hS, by rw [← h2, hset], h3.symm⟩
  next heq =>
    injection h with h1
    injection h1 with h2 h3
    exact Or.inl ⟨h2.symm, h3.symm⟩
  · cases h

theorem copyTry_noDeny_ok {S R : FS} {p : Path} {R1 : FS} {m : Option Mut}
    (h : copyTry noDeny noDeny S R p = .ok (R1, m)) :
    ∃ c mm, S.find p = some (Node.file c mm) ∧ R1 = R.set p (Node.file c mm) ∧
      m = some (Mut.copy p) := by
  unfold copyTry at h
  split at h
  next R1' heq =>
    injection h with h1
    injection h1 with h2 h3
    obtain ⟨c, mm, hS, hset⟩ := copy2_ok heq
    exact ⟨c, mm, hS, by rw [← h2, hset], h3.symm⟩
  next heq => exact absurd heq (copy2_noDeny_ne_perm _ _ _ _)
  · cases h

theorem updStep_frame {wd rdS rdR : Path → Bool} {S R R1 : FS} {m : Option Mut} {p : Path}
    (h : updStep wd rdS rdR S R p = .ok (R1, m)) (q : Path) :
    R1.find q = R.find q ∨
      (R1.find q = some Node.dir ∧ R.find q = none ∧ (q = p ∨ q ∈ properPrefixes p)) ∨
      (q = p ∧ ∃ c mm, S.find p = some (Node.file c mm) ∧
        R1.find q = some (Node.file c mm)) := by
  unfold updStep at h
  split at h
  · split at h
    · injection h with h1
      injection h1 with h2 _
      subst h2
      exact Or.inl rfl
    · split at h
      next R1' heq =>
        injection h with h1
        injection h1 with h2 _
        subst h2
        obtain ⟨hnone, hmk⟩ := makedirs_ok heq
        subst hmk
        by_cases hq : R.find q = none
        · rcases mkdirsFS_cases R p q with hc | ⟨hc1, hc2⟩
          · exact Or.inl hc
          · exact Or.inr (Or.inl ⟨hc1, hq, hc2.symm⟩)
        · exact Or.inl (mkdirsFS_find_existing R p q hq)
      next heq =>
        injection h with h1
        injection h1 with h2 _
        subst h2
        exact Or.inl rfl
      · cases h
  · have copyCase : copyTry wd rdS S R p = .ok (R1, m) →
        R1.find q = R.find q ∨
          (R1.find q = some Node.dir ∧ R.find q = none ∧ (q = p ∨ q ∈ properPrefixes p)) ∨
          (q = p ∧ ∃ c mm, S.find p = some (Node.file c mm) ∧
            R1.find q = some (Node.file c mm)) := by
      intro hc
      rcases copyTry_ok hc with ⟨hR, _⟩ | ⟨c, mm, hS, hset, _⟩
      · subst hR; exact Or.inl rfl
      · by_cases hq : q = p
        · subst hq
          subst hset
          exact Or.inr (Or.inr ⟨rfl, c, mm, hS, FS.find_set_self _ _ _⟩)
        · subst hset
          exact Or.inl (FS.find_set_ne _ _ _ _ hq)
    split at h
    · exact copyCase h
    · split at h
      · cases h
      · injection h with h1
        injection h1 with h2 _
        subst h2
        exact Or.inl rfl
      · exact copyCase h

theorem updStep_preserves {wd rdS rdR : Path → Bool} {S R R1 : FS} {m : Option Mut}
    {p q : Path} (h : updStep wd rdS rdR S R p = .ok (R1, m)) (hg : goodAt S R q) :
    goodAt S R1 q := by
  rcases updStep_frame h q with heq | ⟨hd, hnone, _⟩ | ⟨hq, c, mm, hS, hR1⟩
  · exact ⟨fun hs => by rw [heq]; exact hg.1 hs, fun c m hf => by rw [heq]; exact hg.2 c m hf⟩
  · constructor
    · intro _; rw [hd]; simp
    · intro c m hf
      obtain ⟨c2, m2, hfind, _⟩ := hg.2 c m hf
      rw [hnone] at hfind
      cases hfind
  · subst hq
    constructor
    · intro hs
      rw [hs] at hS
      cases hS
    · intro c' m' hf
      rw [hf] at hS
      injection hS with hS1
      injection hS1 with hc _
      subst hc
      exact ⟨c', mm, hR1, rfl⟩

theorem updStep_noDirFile {wd rdS rdR : Path → Bool} {S R R1 : FS} {m : Option Mut}
    {p : Path} (h : updStep wd rdS rdR S R p = .ok (R1, m)) (hn : noDirFile S R) :
    noDirFile S R1 := by
  intro q c m2 hSdir
  rcases updStep_frame h q with heq | ⟨hd, _, _⟩ | ⟨hq, c2, mm, hS2, _⟩
  · rw [heq]; exact hn q c m2 hSdir
  · rw [hd]; simp
  · subst hq
    rw [hSdir] at hS2
    cases hS2

theorem updStep_noRoot {wd rdS rdR : Path → Bool} {S R R1 : FS} {m : Option Mut}
    {p : Path} (hp : p ≠ []) (h : updStep wd rdS rdR S R p = .ok (R1, m))
    (hr : R.find [] = none) : R1.find [] = none := by
  rcases updStep_frame h [] with heq | ⟨_, _, hm⟩ | ⟨hq, _⟩
  · rw [heq]; exact hr
  · rcases hm with hm | hm
    · exact absurd hm.symm hp
    · exact absurd rfl (ne_nil_of_mem_properPrefixes hm)
  · exact absurd hq.symm hp

theorem updStep_establishes {S R R1 : FS} {m : Option Mut} {p : Path}
    (h : updStep noDeny noDeny noDeny S R p = .ok (R1, m)) : goodAt S R1 p := by
  unfold updStep at h
  split at h
  next hd =>
    split at h
    next hex =>
      injection h with h1
      injection h1 with h2 _
      subst h2
      exact ⟨fun _ => hex, fun c m hf => by rw [hd] at hf; cases hf⟩
    next hnex =>
      split at h
      next R1' heq =>
        injection h with h1
        injection h1 with h2 _
        subst h2
        obtain ⟨hnone, hmk⟩ := makedirs_ok heq
        subst hmk
        refine ⟨fun _ => ?_, fun c m hf => by rw [hd] at hf; cases hf⟩
        rw [mkdirsFS_self R p hnone]
        simp
      next heq => exact absurd heq (makedirs_noDeny_ne_perm _ _ _)
      · cases h
  next hd =>
    split at h
    next hnone =>
      obtain ⟨c, mm, hS, hset, _⟩ := copyTry_noDeny_ok h
      subst hset
      refine ⟨fun hs => absurd hs hd, fun c' m' hf => ?_⟩
      rw [hf] at hS
      injection hS with hS1
      injection hS1 with hc _
      subst hc
      exact ⟨c', mm, FS.find_set_self _ _ _, rfl⟩
    next hnex =>
      split at h
      · cases h
      next heq =>
        injection h with h1
        injection h1 with h2 _
        subst h2
        refine ⟨fun _ => hnex, fun c m hf => ?_⟩
        obtain ⟨c', m', c2, m2, hf1, hf2, hb⟩ := files_equal_ok heq
        rw [hf] at hf1
        injection hf1 with hf1a
        injection hf1a with hc _
        subst hc
        exact ⟨c2, m2, hf2, (eq_of_beq hb.symm).symm⟩
      next heq =>
        obtain ⟨c, mm, hS, hset, _⟩ := copyTry_noDeny_ok h
        subst hset
        refine ⟨fun hs => absurd hs hd, fun c' m' hf => ?_⟩
        rw [hf] at hS
        injection hS with hS1
        injection hS1 with hc _
        subst hc
        exact ⟨c', mm, FS.find_set_self _ _ _, rfl⟩

theorem update_replica_inv {S : FS} {items : List Path} :
    ∀ {R R2 : FS} {ms : List Mut},
      update_replica noDeny noDeny noDeny S items R = .ok (R2, ms) →
      (∀ q, goodAt S R q → goodAt S R2 q) ∧ (∀ p ∈ items, goodAt S R2 p) ∧
      (noDirFile S R → noDirFile S R2) ∧
      ((∀ p ∈ items, p ≠ []) → R.find [] = none → R2.find [] = none) := by
  induction items with
  | nil =>
    intro R R2 ms h
    rw [update_replica, runSteps] at h
    injection h with h1
    injection h1 with h2 _
    subst h2
    exact ⟨fun q hg => hg, fun p hp => absurd hp (List.not_mem_nil p), fun hn => hn,
      fun _ hr => hr⟩
  | cons p rest ih =>
    intro R R2 ms h
    rw [update_replica] at h
    obtain ⟨R1, m, ms1, hs, hr, _⟩ := runSteps_ok_elim h
    obtain ⟨ihpres, ihall, ihndf, ihroot⟩ := ih hr
    refine ⟨fun q hg => ihpres q (updStep_preserves hs hg), ?_, ?_, ?_⟩
    · intro p' hp'
      rcases List.mem_cons.mp hp' with hp' | hp'
      · subst hp'
        exact ihpres p' (updStep_establishes hs)
      · exact ihall p' hp'
    · exact fun hn => ihndf (updStep_noDirFile hs hn)
    · intro hne hroot
      exact ihroot (fun q hq => hne q (List.mem_cons_of_mem _ hq))
        (updStep_noRoot (hne p (List.mem_cons_self _ _)) hs hroot)

/-! ## Lemmas about one `cleanup_replica` iteration -/

theorem SubFS.rfl (R : FS) : SubFS R R := fun _ _ h => h

theorem SubFS.trans {A B C : FS} (h1 : SubFS A B) (h2 : SubFS B C) : SubFS A C :=
  fun q n h => h2 q n (h1 q n h)

theorem SubFS.none_of_none {A B : FS} (h : SubFS A B) {q : Path}
    (hq : B.find q = none) : A.find q = none := by
  rcases h2 : A.find q with _ | n
  · rfl
  · exact absurd (h q n h2) (by rw [hq]; simp)

theorem find_removePrefixed_fs (R : FS) (p q : Path) :
    FS.find ⟨removePrefixed R.entries p⟩ q = if isUnder p q then none else R.find q :=
  findA_removePrefixed R.entries p q

theorem cleanStep_sub {wd : Path → Bool} {S R R1 : FS} {m : Option Mut} {p : Path}
    (h : cleanStep wd S R p = .ok (R1, m)) : SubFS R1 R := by
  unfold cleanStep at h
  split at h
  · split at h
    · split at h
      next R1' heq =>
        injection h with h1
        injection h1 with h2 _
        subst h2
        obtain ⟨_, hrm⟩ := rmtree_ok heq
        subst hrm
        intro q n hq
        rw [find_removePrefixed_fs] at hq
        split at hq
        · cases hq
        · exact hq
      next heq =>
        injection h with h1
        injection h1 with h2 _
        subst h2
        exact SubFS.rfl R
      · cases h
    · split at h
      next R1' heq =>
        injection h with h1
        injection h1 with h2 _
        subst h2
        obtain ⟨_, her⟩ := osRemove_ok heq
        subst her
        intro q n hq
        by_cases hqp : q = p
        · subst hqp
          have h0 : FS.find ⟨eraseKey R.entries q⟩ q = none := findA_eraseKey_self _ _
          rw [h0] at hq
          cases hq
        · have h0 : FS.find ⟨eraseKey R.entries p⟩ q = R.find q :=
            findA_eraseKey_ne _ _ _ hqp
          rw [h0] at hq
          exact hq
      next heq =>
        injection h with h1
        injection h1 with h2 _
        subst h2
        exact SubFS.rfl R
      · cases h
  · injection h with h1
    injection h1 with h2 _
    subst h2
    exact SubFS.rfl R

theorem cleanup_sub {wd : Path → Bool} {S : FS} {items : List Path} {R R2 : FS}
    {ds : List Mut} (h : cleanup_replica wd S items R = .ok (R2, ds)) : SubFS R2 R := by
  rw [cleanup_replica] at h
  exact runSteps_inv (fun X => SubFS X R)
    (fun Ra p Rb m _ hs hP => SubFS.trans (cleanStep_sub hs) hP) h (SubFS.rfl R)

theorem cleanStep_skip_of_src {wd : Path → Bool} {S R : FS} {p : Path}
    (h : S.find p ≠ none) : cleanStep wd S R p = .ok (R, none) := by
  unfold cleanStep
  rw [if_neg (fun hc => h hc.1)]

theorem cleanStep_skip_of_gone {wd : Path → Bool} {S R : FS} {p : Path}
    (h : R.find p = none) : cleanStep wd S R p = .ok (R, none) := by
  unfold cleanStep
  rw [if_neg (fun hc => hc.2 h)]

theorem cleanStep_deletes {S R R1 : FS} {m : Option Mut} {p : Path}
    (hs : S.find p = none) (h : cleanStep noDeny S R p = .ok (R1, m)) :
    R1.find p = none := by
  rcases hR : R.find p with _ | n
  · rw [cleanStep_skip_of_gone hR] at h
    injection h with h1
    injection h1 with h2 _
    subst h2
    exact hR
  · unfold cleanStep at h
    rw [if_pos ⟨hs, by rw [hR]; exact Option.some_ne_none n⟩] at h
    split at h
    · split at h
      next R1' heq =>
        injection h with h1
        injection h1 with h2 _
        subst h2
        obtain ⟨_, hrm⟩ := rmtree_ok heq
        subst hrm
        rw [find_removePrefixed_fs, if_pos (isUnder_refl p)]
      next heq => exact absurd heq (rmtree_noDeny_ne_perm _ _ _)
      · cases h
    · split at h
      next R1' heq =>
        injection h with h1
        injection h1 with h2 _
        subst h2
        obtain ⟨_, her⟩ := osRemove_ok heq
        subst her
        exact findA_eraseKey_self _ _
      next heq => exact absurd heq (osRemove_noDeny_ne_perm _ _ _)
      · cases h

theorem cleanup_complete {S : FS} {items : List Path} :
    ∀ {R R2 : FS} {ds : List Mut}, cleanup_replica noDeny S items R = .ok (R2, ds) →
      ∀ q ∈ items, S.find q = none → R2.find q = none := by
  induction items with
  | nil => intro R R2 ds h q hq _; cases hq
  | cons p rest ih =>
    intro R R2 ds h q hq hs
    rw [cleanup_replica] at h
    obtain ⟨R1, m, ms1, hstep, hrest, _⟩ := runSteps_ok_elim h
    have hsub2 : SubFS R2 R1 :=
      cleanup_sub (show cleanup_replica noDeny S rest R1 = .ok (R2, ms1) from hrest)
    rcases List.mem_cons.mp hq with hq | hq
    · subst hq
      exact SubFS.none_of_none hsub2 (cleanStep_deletes hs hstep)
    · exact ih hrest q hq hs

theorem cleanStep_keep {wd : Path → Bool} {S R R1 : FS} {m : Option Mut} {p : Path}
    (hwf : S.WF) (hroot : R.find [] = none)
    (h : cleanStep wd S R p = .ok (R1, m)) :
    ∀ q, S.find q ≠ none → R1.find q = R.find q := by
  intro q hq
  unfold cleanStep at h
  split at h
  next hc =>
    obtain ⟨hsp, hrp⟩ := hc
    have hpnil : p ≠ [] := fun hp => hrp (hp ▸ hroot)
    have hqp : q ≠ p := fun he => hq (he ▸ hsp)
    have hnotUnder : ¬(isUnder p q = true) := by
      intro hu
      have hmem : p ∈ properPrefixes q :=
        mem_properPrefixes_of_isUnder hu (fun he => hqp he.symm) hpnil
      exact absurd (WF_ancestor_dir hwf hq hmem)
        (by rw [hsp]; exact fun hx => Option.noConfusion hx)
    split at h
    · split at h
      next R1' heq =>
        injection h with h1
        injection h1 with h2 _
        subst h2
        obtain ⟨_, hrm⟩ := rmtree_ok heq
        subst hrm
        rw [find_removePrefixed_fs, if_neg hnotUnder]
      next heq =>
        injection h with h1
        injection h1 with h2 _
        subst h2
        rfl
      · cases h
    · split at h
      next R1' heq =>
        injection h with h1
        injection h1 with h2 _
        subst h2
        obtain ⟨_, her⟩ := osRemove_ok heq
        subst her
        exact findA_eraseKey_ne _ _ _ hqp
      next heq =>
        injection h with h1
        injection h1 with h2 _
        subst h2
        rfl
      · cases h
  · injection h with h1
    injection h1 with h2 _
    subst h2
    rfl

theorem cleanup_keep {wd : Path → Bool} {S : FS} (hwf : S.WF) {items : List Path} :
    ∀ {R R2 : FS} {ds : List Mut}, R.find [] = none →
      cleanup_replica wd S items R = .ok (R2, ds) →
      ∀ q, S.find q ≠ none → R2.find q = R.find q := by
  induction items with
  | nil =>
    intro R R2 ds _ h q _
    rw [cleanup_replica, runSteps] at h
    injection h with h1
    injection h1 with h2 _
    subst h2
    rfl
  | cons p rest ih =>
    intro R R2 ds hroot h q hq
    rw [cleanup_replica] at h
    obtain ⟨R1, m, ms1, hstep, hrest, _⟩ := runSteps_ok_elim h
    have hroot1 : R1.find [] = none := SubFS.none_of_none (cleanStep_sub hstep) hroot
    have hrest2 : cleanup_replica wd S rest R1 = .ok (R2, ms1) := hrest
    rw [ih hroot1 hrest2 q hq, cleanStep_keep hwf hroot hstep q hq]

theorem cleanup_dels {S : FS} {items : List Path} :
    ∀ {R R2 : FS} {ds : List Mut}, cleanup_replica noDeny S items R = .ok (R2, ds) →
      ∀ mu ∈ ds,
        (∀ p, mu = Mut.rmdir p → S.find p = none ∧ R.find p = some Node.dir ∧
          ∀ q, isUnder p q = true → R2.find q = none) ∧
        (∀ p, mu = Mut.rmfile p → S.find p = none ∧
          ∃ c m, R.find p = some (Node.file c m)) ∧
        (∀ p, mu ≠ Mut.mkdirs p ∧ mu ≠ Mut.copy p) := by
  induction items with
  | nil =>
    intro R R2 ds h mu hmu
    rw [cleanup_replica, runSteps] at h
    injection h with h1
    injection h1 with _ h3
    subst h3
    cases hmu
  | cons p rest ih =>
    intro R R2 ds h mu hmu
    rw [cleanup_replica] at h
    obtain ⟨R1, m, ms1, hstep, hrest, hms⟩ := runSteps_ok_elim h
    subst hms
    have hsub1 : SubFS R1 R := cleanStep_sub hstep
    have hsub2 : SubFS R2 R1 :=
      cleanup_sub (show cleanup_replica noDeny S rest R1 = .ok (R2, ms1) from hrest)
    rcases List.mem_append.mp hmu with hm | hm
    · rcases m with _ | m0
      · cases hm
      · have hmu0 : mu = m0 := by simpa using hm
        subst hmu0
        unfold cleanStep at hstep
        split at hstep
        next hc =>
          split at hstep
          next hdir =>
            split at hstep
            next R1' heq =>
              injection hstep with h1
              injection h1 with h2 h3
              subst h2
              injection h3 with h4
              subst h4
              obtain ⟨hfdir, hrm⟩ := rmtree_ok heq
              refine ⟨?_, ?_, ?_⟩
              · intro p' hp'
                injection hp' with hp3
                subst hp3
                refine ⟨hc.1, hfdir, fun q hq => ?_⟩
                refine SubFS.none_of_none hsub2 ?_
                rw [hrm, find_removePrefixed_fs, if_pos hq]
              · intro p' hp'
                cases hp'
              · intro p'
                exact ⟨fun hx => Mut.noConfusion hx, fun hx => Mut.noConfusion hx⟩
            next heq => exact absurd heq (rmtree_noDeny_ne_perm _ _ _)
            · cases hstep
          next hndir =>
            split at hstep
            next R1' heq =>
              injection hstep with h1
              injection h1 with h2 h3
              subst h2
              injection h3 with h4
              subst h4
              obtain ⟨⟨c, mm, hffile⟩, _⟩ := osRemove_ok heq
              refine ⟨?_, ?_, ?_⟩
              · intro p' hp'
                cases hp'
              · intro p' hp'
                injection hp' with hp3
                subst hp3
                exact ⟨hc.1, c, mm, hffile⟩
              · intro p'
                exact ⟨fun hx => Mut.noConfusion hx, fun hx => Mut.noConfusion hx⟩
            next heq => exact absurd heq (osRemove_noDeny_ne_perm _ _ _)
            · cases hstep
        · injection hstep with h1
          injection h1 with _ h3
          cases h3
    · obtain ⟨ha, hb, hcm⟩ := ih hrest mu hm
      refine ⟨?_, ?_, hcm⟩
      · intro p' hp'
        obtain ⟨hs0, hfind, hq⟩ := ha p' hp'
        exact ⟨hs0, hsub1 p' Node.dir hfind, hq⟩
      · intro p' hp'
        obtain ⟨hs0, c, mm, hfind⟩ := hb p' hp'
        exact ⟨hs0, c, mm, hsub1 p' _ hfind⟩

/-! ## Validation of the MD5 model against the RFC 1321 test vectors -/

example : md5hex [] = "d41d8cd98f00b204e9800998ecf8427e" := by decide

example : md5hex [97, 98, 99] = "900150983cd24fb0d6963f7d28e17f72" := by decide

/-! ## Scheduler lemmas -/

theorem tickSched_tailZero {dur : Nat → Nat} {period : Nat} {s : SchedState}
    (h : tailZero s) : tailZero (tickSched dur period s) := by
  have htail : ∀ r ∈ (s.threads.map (fun r => r - 1)).tail, r = 0 := by
    rcases hthreads : s.threads with _ | ⟨h0, t0⟩
    · intro r hr; cases hr
    · intro r hr
      rw [List.map_cons, List.tail_cons] at hr
      obtain ⟨r0, hr0, hrr⟩ := List.mem_map.mp hr
      have hz : r0 = 0 := h r0 (by rw [hthreads, List.tail_cons]; exact hr0)
      rw [← hrr, hz]
  unfold tickSched
  split
  next hg =>
    intro r hr
    rw [List.tail_cons] at hr
    rcases hthreads : s.threads with _ | ⟨h0, t0⟩
    · rw [hthreads] at hr; cases hr
    · rw [hthreads, List.map_cons] at hr
      rcases List.mem_cons.mp hr with hr | hr
      · have hhead := hg.2
        rw [hthreads, List.map_cons] at hhead
        rw [headRem] at hhead
        rw [hr]
        exact hhead
      · exact htail r (by rw [hthreads, List.map_cons, List.tail_cons]; exact hr)
  next =>
    exact htail

theorem schedRun_tailZero (dur : Nat → Nat) (period n : Nat) :
    tailZero (schedRun dur period n) := by
  induction n with
  | zero =>
    intro r hr
    rw [schedRun, List.tail_cons] at hr
    cases hr
  | succ n ih => exact tickSched_tailZero ih

/-- Claim C4: at-most-one-concurrency.  For every pass-duration oracle,
every configured period (including zero) and every number of elapsed
ticks of the `run` loop, at most one of the worker threads ever started
by the scheduler is still running: a new worker thread is started only
when the previous one has finished. -/
theorem claim_C4_at_most_one_pass (dur : Nat → Nat) (period n : Nat) :
    ((schedRun dur period n).threads.countP (fun r => r != 0)) ≤ 1 := by
  have h := schedRun_tailZero dur period n
  rcases hthreads : (schedRun dur period n).threads with _ | ⟨h0, t0⟩
  · simp
  · rw [List.countP_cons]
    have ht : t0.countP (fun r => r != 0) = 0 := by
      rw [List.countP_eq_zero]
      intro a ha
      have hz : a = 0 := h a (by rw [hthreads, List.tail_cons]; exact ha)
      simp [hz]
    rw [ht]
    by_cases h0z : h0 = 0 <;> simp [h0z]

/-- Claim C8: skip-not-queue.  In one tick of the scheduler loop, a new
pass is dispatched (the dispatch count grows) exactly when the period has
elapsed since the last dispatch AND the tracked worker is idle; the count
never grows by more than one per tick (missed dispatches are skipped, not
queued or batched), and the dispatch time is re-based exactly when a
dispatch happens. -/
theorem claim_C8_skip_not_queue (dur : Nat → Nat) (period : Nat) (s : SchedState) :
    ((tickSched dur period s).count = s.count + 1 ↔
      (period ≤ s.now + 1 - s.prev ∧ headRem (s.threads.map (fun r => r - 1)) = 0)) ∧
    (tickSched dur period s).count ≤ s.count + 1 ∧
    (tickSched dur period s).prev =
      (if period ≤ s.now + 1 - s.prev ∧ headRem (s.threads.map (fun r => r - 1)) = 0
        then s.now + 1 else s.prev) := by
  by_cases hg : period ≤ s.now + 1 - s.prev ∧ headRem (s.threads.map (fun r => r - 1)) = 0
  · simp [tickSched, hg]
  · simp [tickSched, hg]

/-! ## The claims about the synchronization pass -/

theorem synchronize_ok_elim {wd rdS rdR : Path → Bool} {S R R2 : FS} {ms : List Mut}
    (h : synchronize_directories wd rdS rdR S R = .ok (R2, ms)) :
    ∃ R1 m1 m2, update_replica wd rdS rdR S (fetch_files_and_dirs S) R = .ok (R1, m1) ∧
      cleanup_replica wd S (fetch_files_and_dirs R1) R1 = .ok (R2, m2) ∧ ms = m1 ++ m2 := by
  rcases hu : update_replica wd rdS rdR S (fetch_files_and_dirs S) R with e | ⟨R1, m1⟩
  · unfold synchronize_directories at h
    rw [hu] at h
    cases h
  · simp only [synchronize_directories, hu] at h
    rcases hc : cleanup_replica wd S (fetch_files_and_dirs R1) R1 with e | ⟨R2', m2⟩ <;>
      rw [hc] at h
    · cases h
    · injection h with h1
      injection h1 with h2 h3
      subst h2
      exact ⟨R1, m1, m2, rfl, hc, h3.symm⟩

/-- Claim C2 (amended): `files_equal` decides MD5-digest equality of the
two files' contents, not byte-identity.  Byte-identical contents always
yield `true`, and the result is `true` exactly when the digests are equal
— so two distinct contents with colliding MD5 digests also yield
`true`. -/
theorem claim_C2_files_equal {fs : FS} {l r : Path} {c : List Nat} {m : Nat}
    {c2 : List Nat} {m2 : Nat}
    (hl : fs.find l = some (Node.file c m)) (hr : fs.find r = some (Node.file c2 m2)) :
    (files_equal noDeny noDeny fs fs l r = .ok true ↔ md5hex c = md5hex c2) ∧
    (c = c2 → files_equal noDeny noDeny fs fs l r = .ok true) := by
  have heq := files_equal_files hl hr
  constructor
  · rw [heq]
    constructor
    · intro hx
      injection hx with h1
      exact eq_of_beq h1
    · intro hx
      rw [hx]
      simp
  · intro hc
    subst hc
    rw [heq]
    simp

/-- Claim C2 witness: two byte-identical files with different mtimes are
reported equal. -/
theorem claim_C2_witness :
    fsEq.find ["l"] = some (Node.file [97, 98, 99] 0) ∧
    fsEq.find ["r"] = some (Node.file [97, 98, 99] 9) ∧
    files_equal noDeny noDeny fsEq fsEq ["l"] ["r"] = .ok true :=
  ⟨by decide, by decide,
   (claim_C2_files_equal
     (show fsEq.find ["l"] = some (Node.file [97, 98, 99] 0) by decide)
     (show fsEq.find ["r"] = some (Node.file [97, 98, 99] 9) by decide)).2 rfl⟩

/-- Claim C2 counterexample: the classic MD5 collision pair — two files
whose contents differ byte-for-byte in six positions, yet `files_equal`
returns `true`.  This refutes "returns true iff the contents are
byte-identical". -/
theorem claim_C2_counterexample :
    fsColl.find ["l"] = some (Node.file collMsg1 0) ∧
    fsColl.find ["r"] = some (Node.file collMsg2 0) ∧
    collMsg1 ≠ collMsg2 ∧
    files_equal noDeny noDeny fsColl fsColl ["l"] ["r"] = .ok true := by
  refine ⟨by decide, by decide, by decide, by decide⟩

/-- Claim C9: kind-mismatch crash.  When the source holds a file `a` and
the replica holds a directory at the same relative path, `update_replica`
calls `files_equal` on the directory; opening it for reading raises an
uncaught `IsADirectoryError` (not a `PermissionError`, so the
`try/except` does not catch it), and the whole pass terminates with that
error instead of replacing the replica directory by the file. -/
theorem claim_C9_kind_mismatch :
    update_replica noDeny noDeny noDeny srcM (fetch_files_and_dirs srcM) repM =
      .error (.isADirectory ["a"]) ∧
    synchronize_directories noDeny noDeny noDeny srcM repM =
      .error (.isADirectory ["a"]) := by
  refine ⟨by decide, by decide⟩

/-- Claim C10 (amended): replica-root bootstrap.  If the replica root
already exists (whatever its kind), `initialize` leaves the filesystem
unchanged.  If it does not exist and no ancestor of it is a plain file,
`initialize` creates the root and every missing ancestor as directories
and touches nothing else.  (When an ancestor is a plain file, the
creation raises an uncaught error instead — the counterexample.) -/
theorem claim_C10_bootstrap (fs : FS) (root : Path) :
    (fs.find root ≠ none → initializeFS noDeny fs root = .ok fs) ∧
    (fs.find root = none →
      ((properPrefixes root).any fun q => isFileAt fs q) = false →
      initializeFS noDeny fs root = .ok (mkdirsFS fs root) ∧
      (mkdirsFS fs root).find root = some Node.dir ∧
      (∀ q, fs.find q ≠ none → (mkdirsFS fs root).find q = fs.find q) ∧
      (∀ q, (mkdirsFS fs root).find q ≠ fs.find q →
        (mkdirsFS fs root).find q = some Node.dir ∧
          (q ∈ properPrefixes root ∨ q = root))) := by
  constructor
  · intro h
    unfold initializeFS
    rw [if_pos h]
  · intro h hanc
    refine ⟨?_, mkdirsFS_self fs root h,
      fun q hq => mkdirsFS_find_existing fs root q hq, ?_⟩
    · unfold initializeFS makedirs
      rw [if_neg (fun hx : fs.find root ≠ none => hx h),
        if_neg (fun hx : fs.find root ≠ none => hx h),
        if_neg (fun hx => by rw [hanc] at hx; cases hx),
        if_neg (by simp [noDeny])]
    · intro q hq
      rcases mkdirsFS_cases fs root q with hc | ⟨hc1, hc2⟩
      · exact absurd hc hq
      · exact ⟨hc1, hc2⟩

/-- Claim C10 witness: on an empty filesystem, `initialize` creates the
missing replica root `r/s` together with its ancestor `r`; on a
filesystem where the root `a` already exists, it changes nothing. -/
theorem claim_C10_witness :
    fsEmpty.find ["r", "s"] = none ∧
    initializeFS noDeny fsEmpty ["r", "s"] = .ok (mkdirsFS fsEmpty ["r", "s"]) ∧
    (mkdirsFS fsEmpty ["r", "s"]).find ["r", "s"] = some Node.dir ∧
    (mkdirsFS fsEmpty ["r", "s"]).find ["r"] = some Node.dir ∧
    fsBad.find ["a"] ≠ none ∧
    initializeFS noDeny fsBad ["a"] = .ok fsBad :=
  ⟨by decide,
   ((claim_C10_bootstrap fsEmpty ["r", "s"]).2 (by decide) (by decide)).1,
   ((claim_C10_bootstrap fsEmpty ["r", "s"]).2 (by decide) (by decide)).2.1,
   by decide,
   by decide,
   (claim_C10_bootstrap fsBad ["a"]).1 (by decide)⟩

/-- Claim C10 counterexample: with a plain file at `a`, the replica root
`a/b` does not exist, yet `initialize` does not create it — `os.makedirs`
raises an uncaught `NotADirectoryError`.  This refutes "if the replica
root does not exist, initialize creates it (including any missing
ancestor directories)". -/
theorem claim_C10_counterexample :
    fsBad.find ["a", "b"] = none ∧
    initializeFS noDeny fsBad ["a", "b"] = .error (.notADirectory ["a", "b"]) := by
  refine ⟨by decide, by decide⟩

/-- Claim C5 (amended): error policy of the two loops.  A
`PermissionError` raised by one of the mutation primitives inside a `try`
block — directory creation or file copy in `update_replica`, recursive or
single removal in `cleanup_replica` — is caught: the loop state is
unchanged for that entry and processing continues with the remaining
entries, with no abort and no rollback.  Every error raised by
`files_equal` (which the source calls outside any `try`), including a
`PermissionError` while reading a file for comparison, and every
non-permission error of the copy primitive, is not caught: it terminates
the pass's worker at once, leaving the remaining entries unprocessed. -/
theorem claim_C5_error_policy (wd rdS rdR : Path → Bool) (S R : FS) (p : Path)
    (rest : List Path) :
    (S.find p = some Node.dir → R.find p = none →
      makedirs wd R p = .error (.permission p) →
      update_replica wd rdS rdR S (p :: rest) R = update_replica wd rdS rdR S rest R) ∧
    (S.find p ≠ some Node.dir → R.find p = none →
      copy2 wd rdS S R p = .error (.permission p) →
      update_replica wd rdS rdR S (p :: rest) R = update_replica wd rdS rdR S rest R) ∧
    (S.find p = none → R.find p = some Node.dir →
      rmtree wd R p = .error (.permission p) →
      cleanup_replica wd S (p :: rest) R = cleanup_replica wd S rest R) ∧
    (∀ c m, S.find p = none → R.find p = some (Node.file c m) →
      osRemove wd R p = .error (.permission p) →
      cleanup_replica wd S (p :: rest) R = cleanup_replica wd S rest R) ∧
    (∀ e, S.find p ≠ some Node.dir → R.find p ≠ none →
      files_equal rdS rdR S R p p = .error e →
      update_replica wd rdS rdR S (p :: rest) R = .error e) ∧
    (∀ e, S.find p ≠ some Node.dir → R.find p = none →
      copy2 wd rdS S R p = .error e → (∀ q, e ≠ Err.permission q) →
      update_replica wd rdS rdR S (p :: rest) R = .error e) ∧
    (∀ c m c2 m2, S.find p = some (Node.file c m) → rdS p = false →
      R.find p = some (Node.file c2 m2) → rdR p = true →
      update_replica wd rdS rdR S (p :: rest) R = .error (.permission p)) := by
  refine ⟨?_, ?_, ?_, ?_, ?_, ?_, ?_⟩
  · intro hS hR hmk
    have hstep : updStep wd rdS rdR S R p = .ok (R, none) := by
      unfold updStep
      rw [if_pos hS, if_neg (fun hx : R.find p ≠ none => hx hR), hmk]
    exact runSteps_skip hstep
  · intro hS hR hcp
    have hstep : updStep wd rdS rdR S R p = .ok (R, none) := by
      unfold updStep
      rw [if_neg hS, if_pos hR]
      unfold copyTry
      rw [hcp]
    exact runSteps_skip hstep
  · intro hS hR hrm
    have hstep : cleanStep wd S R p = .ok (R, none) := by
      unfold cleanStep
      rw [if_pos ⟨hS, by rw [hR]; exact Option.some_ne_none _⟩, if_pos hR, hrm]
    exact runSteps_skip hstep
  · intro c m hS hR hre
    have hstep : cleanStep wd S R p = .ok (R, none) := by
      unfold cleanStep
      rw [if_pos ⟨hS, by rw [hR]; exact Option.some_ne_none _⟩,
        if_neg (show ¬R.find p = some Node.dir by
          rw [hR]; intro hx; injection hx with h2; cases h2), hre]
    exact runSteps_skip hstep
  · intro e hS hR hfe
    have hstep : updStep wd rdS rdR S R p = .error e := by
      unfold updStep
      rw [if_neg hS, if_neg hR, hfe]
    exact runSteps_cons_error hstep
  · intro e hS hR hcp hne
    have hstep : updStep wd rdS rdR S R p = .error e := by
      unfold updStep
      rw [if_neg hS, if_pos hR]
      unfold copyTry
      rw [hcp]
      cases e with
      | permission q => exact absurd rfl (hne q)
      | fileNotFound q => rfl
      | fileExists q => rfl
      | isADirectory q => rfl
      | notADirectory q => rfl
    exact runSteps_cons_error hstep
  · intro c m c2 m2 hS hrdS hR hrdR
    have hfe : files_equal rdS rdR S R p p = .error (.permission p) := by
      unfold files_equal generate_md5
      rw [hS, hR, hrdS, hrdR]
      rfl
    have hstep : updStep wd rdS rdR S R p = .error (.permission p) := by
      unfold updStep
      rw [if_neg (show ¬S.find p = some Node.dir by
          rw [hS]; intro hx; injection hx with h2; cases h2),
        if_neg (show ¬R.find p = none by rw [hS] at *; rw [hR]; exact Option.some_ne_none _),
        hfe]
    exact runSteps_cons_error hstep

/-- Claim C5 witness: a permission-denied `rmtree` on the stale replica
directory `x` is caught and the loop continues; a permission error while
reading the replica file `a` inside `files_equal` aborts the pass. -/
theorem claim_C5_witness :
    cleanup_replica denyX srcD [["x"]] repX = cleanup_replica denyX srcD [] repX ∧
    update_replica noDeny noDeny denyA srcP [["a"]] srcP = .error (.permission ["a"]) :=
  ⟨(claim_C5_error_policy denyX noDeny noDeny srcD repX ["x"] []).2.2.1
      (by decide) (by decide) (by decide),
   (claim_C5_error_policy noDeny noDeny denyA srcP srcP ["a"] []).2.2.2.2.2.2
      [7] 0 [7] 0 (by decide) (by decide) (by decide) (by decide)⟩

/-- Claim C5 counterexample: with reading of the replica file `a` denied,
`update_replica` on the full source enumeration does NOT catch the
resulting `PermissionError` — the pass aborts with it instead of logging a
warning and continuing.  This refutes "a permission error on any single
entry is caught ... and processing continues". -/
theorem claim_C5_counterexample :
    update_replica noDeny noDeny denyA srcP (fetch_files_and_dirs srcP) srcP =
      .error (.permission ["a"]) := by
  decide

/-- Claim C3: pruner correctness.  Over the replica enumeration, with no
permission denials: an enumerated replica entry is gone at the end of the
pass exactly when its path does not exist under the source root; entries
whose source path exists keep their binding unchanged; every recorded
deletion targets an entry that existed and whose source path does not
exist, directories being removed recursively in one `rmtree` operation
(all paths below them are gone at the end) and files individually. -/
theorem claim_C3_pruner {S R R2 : FS} {ds : List Mut}
    (hwf : S.WF) (hroot : R.find [] = none)
    (h : cleanup_replica noDeny S (fetch_files_and_dirs R) R = .ok (R2, ds)) :
    (∀ q, R.find q ≠ none → (S.find q = none ↔ R2.find q = none)) ∧
    (∀ q, S.find q ≠ none → R2.find q = R.find q) ∧
    (∀ p, Mut.rmdir p ∈ ds → S.find p = none ∧ R.find p = some Node.dir ∧
      ∀ q, isUnder p q = true → R2.find q = none) ∧
    (∀ p, Mut.rmfile p ∈ ds → S.find p = none ∧
      ∃ c m, R.find p = some (Node.file c m)) := by
  have hkeep := cleanup_keep hwf hroot h
  have hdels := cleanup_dels h
  refine ⟨?_, hkeep, ?_, ?_⟩
  · intro q hq
    constructor
    · intro hS
      exact cleanup_complete h q ((mem_fetch_iff R q).mpr hq) hS
    · intro hR2
      by_contra hS
      rw [hkeep q hS] at hR2
      exact hq hR2
  · intro p hm
    exact (hdels _ hm).1 p rfl
  · intro p hm
    exact (hdels _ hm).2.1 p rfl

/-- Claim C3 witness: pruning `repC3` against `srcW` removes the stale
directory `old` recursively (its child `old/f` is gone without being
removed individually) and the stale file `e` individually, and keeps
everything that exists in the source. -/
theorem claim_C3_witness :
    FS.WF srcW ∧ repC3.find [] = none ∧
    cleanup_replica noDeny srcW (fetch_files_and_dirs repC3) repC3 =
      .ok (repC3r, [Mut.rmdir ["old"], Mut.rmfile ["e"]]) ∧
    repC3r.find ["old", "f"] = none :=
  ⟨by decide, by decide, by decide,
   ((claim_C3_pruner (by decide) (by decide)
       (show cleanup_replica noDeny srcW (fetch_files_and_dirs repC3) repC3 =
         .ok (repC3r, [Mut.rmdir ["old"], Mut.rmfile ["e"]]) by decide)).2.2.1
     ["old"] (by decide)).2.2 ["old", "f"] (by decide)⟩

theorem updStep_mut_shape {wd rdS rdR : Path → Bool} {S Ra Rb : FS} {mu : Mut} {q : Path}
    (h : updStep wd rdS rdR S Ra q = .ok (Rb, some mu)) :
    mu = Mut.mkdirs q ∨ mu = Mut.copy q := by
  have hcopy : copyTry wd rdS S Ra q = .ok (Rb, some mu) → mu = Mut.copy q := by
    intro hc
    rcases copyTry_ok hc with ⟨_, hno⟩ | ⟨_, _, _, _, hsome⟩
    · cases hno
    · exact Option.some.inj hsome
  unfold updStep at h
  split at h
  · split at h
    · injection h with h1
      injection h1 with _ h3
      cases h3
    · split at h
      · injection h with h1
        injection h1 with _ h3
        exact Or.inl (Option.some.inj h3.symm)
      · injection h with h1
        injection h1 with _ h3
        cases h3
      · cases h
  · split at h
    · exact Or.inr (hcopy h)
    · split at h
      · cases h
      · injection h with h1
        injection h1 with _ h3
        cases h3
      · exact Or.inr (hcopy h)

/-- Claim C7: content-only equality.  A replica file whose bytes are
identical to its source counterpart but whose modification time differs
is never copied by `update_replica`: its binding (content and mtime) is
unchanged after the loop and no copy mutation targeting it is
recorded. -/
theorem claim_C7_content_only {S R R1 : FS} {ms : List Mut} {items : List Path}
    {p : Path} {c : List Nat} {m m2 : Nat}
    (hS : S.find p = some (Node.file c m)) (hR : R.find p = some (Node.file c m2))
    (_hm : m ≠ m2)
    (h : update_replica noDeny noDeny noDeny S items R = .ok (R1, ms)) :
    R1.find p = some (Node.file c m2) ∧ Mut.copy p ∉ ms := by
  have hskip : ∀ Ra : FS, Ra.find p = some (Node.file c m2) →
      updStep noDeny noDeny noDeny S Ra p = .ok (Ra, none) := by
    intro Ra hP
    unfold updStep
    rw [if_neg (show ¬S.find p = some Node.dir by
        rw [hS]; intro hx; injection hx with h3; cases h3),
      if_neg (show ¬Ra.find p = none by rw [hP]; exact Option.some_ne_none _),
      files_equal_files hS hP]
    simp
  have hstepP : ∀ Ra q Rb mo, q ∈ items →
      updStep noDeny noDeny noDeny S Ra q = .ok (Rb, mo) →
      Ra.find p = some (Node.file c m2) → Rb.find p = some (Node.file c m2) := by
    intro Ra q Rb mo _ hs hP
    by_cases hqp : q = p
    · subst hqp
      rw [hskip Ra hP] at hs
      injection hs with h1
      injection h1 with h2 _
      rw [← h2]
      exact hP
    · rcases updStep_frame hs p with heq | ⟨_, hn, _⟩ | ⟨hq2, _⟩
      · rw [heq]; exact hP
      · rw [hP] at hn; cases hn
      · exact absurd hq2.symm hqp
  constructor
  · exact runSteps_inv (fun X => X.find p = some (Node.file c m2)) hstepP h hR
  · intro hmem
    obtain ⟨q, hq, Ra, Rb, hPa, hsq⟩ :=
      runSteps_mut (fun X => X.find p = some (Node.file c m2)) hstepP h hR _ hmem
    rcases updStep_mut_shape hsq with hsh | hsh
    · cases hsh
    · injection hsh with h4
      subst h4
      rw [hskip Ra hPa] at hsq
      injection hsq with h1
      injection h1 with _ h3
      cases h3

/-- Claim C7 witness: the replica file `f` has the same bytes as the
source file but a different mtime; a full update pass performs no copy
and leaves its binding untouched. -/
theorem claim_C7_witness :
    srcC7.find ["f"] = some (Node.file [5, 6] 1) ∧
    repC7.find ["f"] = some (Node.file [5, 6] 2) ∧
    update_replica noDeny noDeny noDeny srcC7 (fetch_files_and_dirs srcC7) repC7 =
      .ok (repC7, []) ∧
    repC7.find ["f"] = some (Node.file [5, 6] 2) ∧ Mut.copy ["f"] ∉ ([] : List Mut) :=
  ⟨by decide, by decide, by decide,
   claim_C7_content_only
     (show srcC7.find ["f"] = some (Node.file [5, 6] 1) by decide)
     (show repC7.find ["f"] = some (Node.file [5, 6] 2) by decide)
     (show (1 : Nat) ≠ 2 by decide)
     (show update_replica noDeny noDeny noDeny srcC7 (fetch_files_and_dirs srcC7) repC7 =
       .ok (repC7, []) by decide)⟩

/-- Claim C1 (amended): convergence.  For a well-formed finite source
tree and any initial replica in which no source-directory path is
occupied by a file, after one pass of `synchronize_directories` that
completes with no uncaught error and no permission denial, the replica
holds exactly the source's relative paths with the same kinds, and every
replica file's MD5 digest equals the digest of the source file at the
same relative path. -/
theorem claim_C1_convergence {S R R2 : FS} {ms : List Mut}
    (hwf : S.WF) (hroot : R.find [] = none)
    (hkind : ∀ pr ∈ S.entries, pr.2 = Node.dir → isFileAt R pr.1 = false)
    (h : synchronize_directories noDeny noDeny noDeny S R = .ok (R2, ms)) :
    (∀ p, S.find p = some Node.dir ↔ R2.find p = some Node.dir) ∧
    (∀ p c m, S.find p = some (Node.file c m) →
      ∃ c2 m2, R2.find p = some (Node.file c2 m2) ∧ md5hex c2 = md5hex c) ∧
    (∀ p, S.find p = none → R2.find p = none) := by
  obtain ⟨R1, m1, m2, hu, hc, _⟩ := synchronize_ok_elim h
  obtain ⟨_, hall, hndf, hrootfn⟩ := update_replica_inv hu
  have hnoDirFile : noDirFile S R := by
    intro p c m hdir hfile
    have hmem := findA_mem hdir
    have hk := hkind _ hmem rfl
    unfold isFileAt at hk
    rw [hfile] at hk
    simp at hk
  have hndfR1 : noDirFile S R1 := hndf hnoDirFile
  have hrootR1 : R1.find [] = none :=
    hrootfn (fun p hp => find_ne_nil_of_WF hwf ((mem_fetch_iff S p).mp hp)) hroot
  have hkeep := cleanup_keep hwf hrootR1 hc
  have hsub := cleanup_sub hc
  have hgood : ∀ p, S.find p ≠ none → goodAt S R1 p :=
    fun p hp => hall p ((mem_fetch_iff S p).mpr hp)
  have hcomplete : ∀ p, S.find p = none → R2.find p = none := by
    intro p hS
    rcases hR1 : R1.find p with _ | n
    · exact SubFS.none_of_none hsub hR1
    · exact cleanup_complete hc p
        ((mem_fetch_iff R1 p).mpr (by rw [hR1]; exact Option.some_ne_none n)) hS
  refine ⟨?_, ?_, hcomplete⟩
  · intro p
    constructor
    · intro hdir
      have hne : S.find p ≠ none := by rw [hdir]; exact Option.some_ne_none _
      have h1 : R1.find p ≠ none := (hgood p hne).1 hdir
      have h2 : R2.find p = R1.find p := hkeep p hne
      rcases hR1 : R1.find p with _ | n
      · exact absurd hR1 h1
      · cases n with
        | dir => rw [h2, hR1]
        | file c m => exact absurd hR1 (hndfR1 p c m hdir)
    · intro hdir
      rcases hS : S.find p with _ | n
      · rw [hcomplete p hS] at hdir
        cases hdir
      · cases n with
        | dir => rfl
        | file c m =>
          have hne : S.find p ≠ none := by rw [hS]; exact Option.some_ne_none _
          obtain ⟨c2, m2, hf, _⟩ := (hgood p hne).2 c m hS
          rw [hkeep p hne, hf] at hdir
          injection hdir with h3
          cases h3
  · intro p c m hf
    have hne : S.find p ≠ none := by rw [hf]; exact Option.some_ne_none _
    obtain ⟨c2, m2, hfind, hmd⟩ := (hgood p hne).2 c m hf
    refine ⟨c2, m2, ?_, hmd⟩
    rw [hkeep p hne, hfind]

/-- Claim C1 witness: one pass over `srcW` from the stale replica `repW`
creates `a`, copies `a/b` and `c`, deletes `x`, and the result matches
the source; the directory conclusion is obtained from the convergence
theorem. -/
theorem claim_C1_witness :
    FS.WF srcW ∧ repW.find [] = none ∧
    (∀ pr ∈ srcW.entries, pr.2 = Node.dir → isFileAt repW pr.1 = false) ∧
    synchronize_directories noDeny noDeny noDeny srcW repW = .ok (repW2, msW) ∧
    repW2.find ["a"] = some Node.dir :=
  ⟨by decide, by decide, by decide, by decide,
   ((claim_C1_convergence (by decide) (by decide) (by decide)
       (show synchronize_directories noDeny noDeny noDeny srcW repW = .ok (repW2, msW)
         by decide)).1 ["a"]).mp (by decide)⟩

/-- Claim C1 counterexample: source = one empty directory `d`, replica = a
file at `d`.  The pass completes with no error and performs no mutation,
yet the final replica holds a file where the source holds a directory.
This refutes convergence as stated (for every initial replica state). -/
theorem claim_C1_counterexample :
    FS.WF srcD ∧ repD.find [] = none ∧
    synchronize_directories noDeny noDeny noDeny srcD repD = .ok (repD, []) ∧
    srcD.find ["d"] = some Node.dir ∧ repD.find ["d"] ≠ some Node.dir := by
  refine ⟨by decide, by decide, by decide, by decide, by decide⟩

/-- Claim C6: idempotence.  Running `synchronize_directories` again
immediately after a pass that completed with no uncaught error and no
permission denial, with the source unchanged, performs zero filesystem
mutations: the second pass succeeds, changes nothing, and its mutation
list is empty. -/
theorem claim_C6_idempotence {S R R2 : FS} {ms : List Mut}
    (hwf : S.WF) (hroot : R.find [] = none)
    (h : synchronize_directories noDeny noDeny noDeny S R = .ok (R2, ms)) :
    synchronize_directories noDeny noDeny noDeny S R2 = .ok (R2, []) := by
  obtain ⟨R1, m1, m2, hu, hc, _⟩ := synchronize_ok_elim h
  obtain ⟨_, hall, _, hrootfn⟩ := update_replica_inv hu
  have hrootR1 : R1.find [] = none :=
    hrootfn (fun p hp => find_ne_nil_of_WF hwf ((mem_fetch_iff S p).mp hp)) hroot
  have hkeep := cleanup_keep hwf hrootR1 hc
  have hsub := cleanup_sub hc
  have hgood : ∀ p, S.find p ≠ none → goodAt S R1 p :=
    fun p hp => hall p ((mem_fetch_iff S p).mpr hp)
  have hcomplete : ∀ p, S.find p = none → R2.find p = none := by
    intro p hS
    rcases hR1 : R1.find p with _ | n
    · exact SubFS.none_of_none hsub hR1
    · exact cleanup_complete hc p
        ((mem_fetch_iff R1 p).mpr (by rw [hR1]; exact Option.some_ne_none n)) hS
  have hupd2 : ∀ p ∈ fetch_files_and_dirs S,
      updStep noDeny noDeny noDeny S R2 p = .ok (R2, none) := by
    intro p hp
    have hSp : S.find p ≠ none := (mem_fetch_iff S p).mp hp
    rcases hS : S.find p with _ | n
    · exact absurd hS hSp
    · cases n with
      | dir =>
        have h1 : R1.find p ≠ none := (hgood p hSp).1 hS
        have h2 : R2.find p = R1.find p := hkeep p hSp
        unfold updStep
        rw [if_pos hS, if_pos (by rw [h2]; exact h1)]
      | file c m =>
        obtain ⟨c2, m2, hf, hmd⟩ := (hgood p hSp).2 c m hS
        have hR2f : R2.find p = some (Node.file c2 m2) := by rw [hkeep p hSp, hf]
        unfold updStep
        rw [if_neg (show ¬S.find p = some Node.dir by
            rw [hS]; intro hx; injection hx with h3; cases h3),
          if_neg (show ¬R2.find p = none by rw [hR2f]; exact Option.some_ne_none _),
          files_equal_files hS hR2f, hmd]
        simp
  have hclean2 : ∀ p ∈ fetch_files_and_dirs R2,
      cleanStep noDeny S R2 p = .ok (R2, none) := by
    intro p hp
    have hR2p : R2.find p ≠ none := (mem_fetch_iff R2 p).mp hp
    have hSp : S.find p ≠ none := fun hS => hR2p (hcomplete p hS)
    exact cleanStep_skip_of_src hSp
  have hu2 : update_replica noDeny noDeny noDeny S (fetch_files_and_dirs S) R2 =
      .ok (R2, []) := runSteps_noop hupd2
  have hc2 : cleanup_replica noDeny S (fetch_files_and_dirs R2) R2 = .ok (R2, []) :=
    runSteps_noop hclean2
  unfold synchronize_directories
  rw [hu2]
  simp only [hc2]
  rfl

/-- Claim C6 witness: a second pass over `srcW` immediately after the
successful pass that produced `repW2` performs zero mutations. -/
theorem claim_C6_witness :
    FS.WF srcW ∧ repW.find [] = none ∧
    synchronize_directories noDeny noDeny noDeny srcW repW = .ok (repW2, msW) ∧
    synchronize_directories noDeny noDeny noDeny srcW repW2 = .ok (repW2, []) :=
  ⟨by decide, by decide, by decide,
   claim_C6_idempotence (by decide) (by decide)
     (show synchronize_directories noDeny noDeny noDeny srcW repW = .ok (repW2, msW)
       by decide)⟩

end FolderSync
